import Mathlib

set_option maxRecDepth 100000

/-!
Verification of the minesweeper engine (`minesweeper.py`).

The Python module is shallowly embedded: the board is a `List (List Int)`
(`-1` = mine, `0..8` = adjacent-mine counts), coordinates are `Int × Int`
(Python ints; bounds are checked explicitly, as in `_is_inside`), the mutable
game object is a `Game` structure, and methods that can raise become
functions into `Except PyErr`.
-/

namespace Minesweeper

/-- A board coordinate `(row, column)`, as in the Python `Tuple[int, int]`. -/
abbrev Coord := Int × Int

/-- The board matrix: `-1` for a mine, otherwise the adjacent-mine count. -/
abbrev Board := List (List Int)

/-- The relative offsets produced by
`chain(permutations(range(-1, 2, 1), 2), ((1, 1), (-1, -1)))`, in that order. -/
def deltas : List (Int × Int) :=
  [(-1, 0), (-1, 1), (0, -1), (0, 1), (1, -1), (1, 0), (1, 1), (-1, -1)]

/-- `Minesweeper._is_inside`: `0 <= x < height and 0 <= y < width`. -/
def isInside (hw : Int × Int) (p : Coord) : Bool :=
  decide (0 ≤ p.1) && decide (p.1 < hw.1) && decide (0 ≤ p.2) && decide (p.2 < hw.2)

/-- Reading `board[row][column]` (only used at in-bounds coordinates). -/
def bget (b : Board) (p : Coord) : Int :=
  (b.getD p.1.toNat []).getD p.2.toNat 0

/-- Writing `board[row][column] = v`. -/
def bset (b : Board) (p : Coord) (v : Int) : Board :=
  b.set p.1.toNat ((b.getD p.1.toNat []).set p.2.toNat v)

/-- `Minesweeper.all_positions`: row-major list of every in-bounds coordinate. -/
def allPositions (hw : Int × Int) : List Coord :=
  (List.range hw.1.toNat).flatMap fun (r : Nat) =>
    (List.range hw.2.toNat).map fun (c : Nat) => ((r : Int), (c : Int))

/-- All 8 king-move neighbor coordinates (bounds not yet checked); this is the
sequence of positions `_spread_empty` recurses on. -/
def adjacentAll (p : Coord) : List Coord :=
  deltas.map fun d => (p.1 + d.1, p.2 + d.2)

/-- `Minesweeper._get_adjacent`: the up-to-8 in-bounds king-move neighbors. -/
def getAdjacent (hw : Int × Int) (p : Coord) : List Coord :=
  (adjacentAll p).filter (isInside hw)

/-- `PlayType`. -/
inductive PlayType where
  | SPREADING
  | POSITION_REVEALED
  | NOTHING
  | CHORD
  | FLAG_ADDED
  | FLAG_REMOVED
deriving DecidableEq, Repr

/-- The `Play` dataclass: a move record. -/
structure Play where
  type : PlayType
  positions : List Coord
  bomb_exploded : Bool := false
deriving DecidableEq, Repr

/-- `GameState`. -/
inductive GameState where
  | LOST
  | WON
  | IN_PROGRESS
deriving DecidableEq, Repr

/-- The Python exceptions the engine can raise. -/
inductive PyErr where
  /-- the `GameOver` exception -/
  | gameOver
  /-- `ValueError` (out-of-bounds positions, `list.remove` misses,
  `random.sample` with too large a sample) -/
  | valueError
  /-- `IndexError` (`list.pop` from an empty list) -/
  | indexError
deriving DecidableEq, Repr

instance {ε α : Type} [DecidableEq ε] [DecidableEq α] : DecidableEq (Except ε α) := fun a b =>
  match a, b with
  | .error e, .error f =>
    if h : e = f then .isTrue (congrArg _ h) else .isFalse fun hh => h (Except.error.inj hh)
  | .ok x, .ok y =>
    if h : x = y then .isTrue (congrArg _ h) else .isFalse fun hh => h (Except.ok.inj hh)
  | .error _, .ok _ => .isFalse Except.noConfusion
  | .ok _, .error _ => .isFalse Except.noConfusion

/-- The mutable state of a `Minesweeper` object: `_size`, `_board`,
`flags`, `_revealed`, `_history`. -/
structure Game where
  size : Int × Int
  board : Board
  flags : List Coord
  revealed : List Coord
  history : List Play
deriving DecidableEq, Repr

/-- `Minesweeper.mines_positions`: in-bounds cells whose value is `-1`. -/
def minesPositions (g : Game) : List Coord :=
  (allPositions g.size).filter fun p => decide (bget g.board p = -1)

/-- In-bounds cells whose value is not `-1` (`set(all_positions) - mines_positions`). -/
def nonMinePositions (g : Game) : List Coord :=
  (allPositions g.size).filter fun p => decide (bget g.board p ≠ -1)

/-- Truthiness of `self._history and self._history[-1].bomb_exploded`. -/
def lastBomb (hist : List Play) : Bool :=
  match hist.getLast? with
  | some p => p.bomb_exploded
  | none => false

/-- The win test in `Minesweeper.state`:
`set(self.flags) == self.mines_positions and set(self.revealed) == set(all_positions) - mines_positions`. -/
def wonB (g : Game) : Bool :=
  decide (g.flags.toFinset = (minesPositions g).toFinset) &&
    decide (g.revealed.toFinset = (nonMinePositions g).toFinset)

/-- `Minesweeper.state`. -/
def stateOf (g : Game) : GameState :=
  if wonB g then .WON
  else if lastBomb g.history then .LOST
  else .IN_PROGRESS

/-- `Minesweeper.game_over`. -/
def gameOver (g : Game) : Bool :=
  decide (stateOf g ≠ .IN_PROGRESS)

end Minesweeper

namespace Minesweeper

/-- One pass of the neighbor loop in `_spread_empty`: call `f` (the recursive
spread) on each coordinate in turn, threading the revealed list through and
concatenating the returned position tuples. -/
def spreadSeq (f : Coord → List Coord → List Coord × List Coord) :
    List Coord → List Coord → List Coord × List Coord
  | [], rev => ([], rev)
  | q :: qs, rev =>
    let a := f q rev
    let r := spreadSeq f qs a.2
    (a.1 ++ r.1, r.2)

/-- `Minesweeper._spread_empty`, with an explicit fuel argument standing for
the call stack (the Python recursion terminates because every call either
returns at once or appends a fresh cell to `_revealed`; `spreadEmpty` below
supplies enough fuel for that argument to go through).  Returns the tuple of
positions together with the updated `_revealed` list. -/
def spreadAux (b : Board) (hw : Int × Int) : Nat → Coord → List Coord → List Coord × List Coord
  | 0, _, rev => ([], rev)
  | fuel + 1, pos, rev =>
    if pos ∈ rev ∨ isInside hw pos = false then ([], rev)
    else if bget b pos = 0 then
      let r := spreadSeq (fun q l => spreadAux b hw fuel q l) (adjacentAll pos) (rev ++ [pos])
      (pos :: r.1, r.2)
    else ([pos], rev ++ [pos])

/-- In-bounds cells not yet revealed; bounds the depth of `_spread_empty`'s
recursion. -/
def freeCount (hw : Int × Int) (rev : List Coord) : Nat :=
  ((allPositions hw).filter fun p => decide (p ∉ rev)).length

/-- `Minesweeper._spread_empty` itself. -/
def spreadEmpty (b : Board) (hw : Int × Int) (pos : Coord) (rev : List Coord) :
    List Coord × List Coord :=
  spreadAux b hw (freeCount hw rev + 1) pos rev

/-- `Minesweeper._play` with `from_chord=True`: the nested reveal used inside a
chord.  A game-over state degrades to a no-op record instead of raising, and
the already-revealed/chord branch is skipped (`... and not from_chord`).
Only `_revealed` is mutated; nested plays are not appended to `_history`. -/
def nestedPlay (g : Game) (pos : Coord) : Except PyErr (Play × Game) :=
  if gameOver g then .ok (⟨.NOTHING, [pos], false⟩, g)
  else if isInside g.size pos = false then .error .valueError
  else if pos ∈ g.flags then .ok (⟨.NOTHING, [pos], false⟩, g)
  else if pos ∈ minesPositions g then
    .ok (⟨.POSITION_REVEALED, [pos], true⟩, { g with revealed := g.revealed ++ [pos] })
  else if bget g.board pos = 0 then
    let r := spreadEmpty g.board g.size pos g.revealed
    .ok (⟨.SPREADING, r.1, false⟩, { g with revealed := r.2 })
  else
    .ok (⟨.POSITION_REVEALED, [pos], false⟩, { g with revealed := g.revealed ++ [pos] })

/-- The `for a_row, a_column in self._get_adjacent(...)` loop in `_do_chord`:
accumulates the extended position list and the OR of the `bomb_exploded`
flags, threading the game state through the nested plays. -/
def chordLoop : List Coord → Game → List Coord → Bool →
    Except PyErr (List Coord × Bool × Game)
  | [], g, acc, bomb => .ok (acc, bomb, g)
  | q :: qs, g, acc, bomb =>
    match nestedPlay g q with
    | .error e => .error e
    | .ok (p, g') =>
      chordLoop qs g' (if p.type ≠ .NOTHING then acc ++ p.positions else acc)
        (bomb || p.bomb_exploded)

/-- `Minesweeper._do_chord`. -/
def doChord (g : Game) (pos : Coord) : Except PyErr (Play × Game) :=
  let value := bget g.board pos
  let flagged := ((getAdjacent g.size pos).filter fun adj => decide (adj ∈ g.flags)).length
  if 0 < value ∧ value = (flagged : Int) then
    match chordLoop (getAdjacent g.size pos) g [] false with
    | .error e => .error e
    | .ok (lpos, bomb, g') => .ok (⟨.CHORD, lpos, bomb⟩, g')
  else .ok (⟨.NOTHING, [pos], false⟩, g)

/-- `Minesweeper._play` with `from_chord=False` (the top-level reveal): raises
on a finished game or an out-of-bounds position, no-ops on a flagged cell
(returning without touching `_history`), otherwise chords / reveals / spreads
and appends the resulting record to `_history`. -/
def topPlay (g : Game) (pos : Coord) : Except PyErr (Play × Game) :=
  if gameOver g then .error .gameOver
  else if isInside g.size pos = false then .error .valueError
  else if pos ∈ g.flags then .ok (⟨.NOTHING, [pos], false⟩, g)
  else
    let step : Except PyErr (Play × Game) :=
      if pos ∈ g.revealed then doChord g pos
      else if pos ∈ minesPositions g then
        .ok (⟨.POSITION_REVEALED, [pos], true⟩, { g with revealed := g.revealed ++ [pos] })
      else if bget g.board pos = 0 then
        let r := spreadEmpty g.board g.size pos g.revealed
        .ok (⟨.SPREADING, r.1, false⟩, { g with revealed := r.2 })
      else
        .ok (⟨.POSITION_REVEALED, [pos], false⟩, { g with revealed := g.revealed ++ [pos] })
    match step with
    | .error e => .error e
    | .ok (p, g') => .ok (p, { g' with history := g'.history ++ [p] })

/-- The public `Minesweeper.play`: it runs `self._play(row, column)` but its
body has no `return` statement, so the caller receives Python's `None`
(modelled as `none`) rather than the `Play` record. -/
def play (g : Game) (pos : Coord) : Except PyErr (Option Play × Game) :=
  match topPlay g pos with
  | .error e => .error e
  | .ok (_, g') => .ok (none, g')

/-- `Minesweeper.toggle_flag`.  Note that the source constructs a
`Play(PlayType.FLAG_REMOVED, ...)` record in *both* branches. -/
def toggleFlag (g : Game) (pos : Coord) : Except PyErr (Play × Game) :=
  if isInside g.size pos = false then .error .valueError
  else if pos ∈ g.flags then
    let p : Play := ⟨.FLAG_REMOVED, [pos], false⟩
    .ok (p, { g with flags := g.flags.erase pos, history := g.history ++ [p] })
  else
    let p : Play := ⟨.FLAG_REMOVED, [pos], false⟩
    .ok (p, { g with flags := g.flags ++ [pos], history := g.history ++ [p] })

/-- `Minesweeper.undo`: returns unchanged unless `game_over`; otherwise pops
the last history record and runs `self._revealed.remove(last_play.positions[0])`
(an `IndexError` if the history or the record's position tuple is empty, a
`ValueError` if that coordinate is not in `_revealed`). -/
def undo (g : Game) : Except PyErr Game :=
  if gameOver g = false then .ok g
  else
    match g.history.getLast? with
    | none => .error .indexError
    | some lastPlay =>
      match lastPlay.positions with
      | [] => .error .indexError
      | p :: _ =>
        if p ∈ g.revealed then
          .ok { g with history := g.history.dropLast, revealed := g.revealed.erase p }
        else .error .valueError

/-- The empty `height × width` board `_create_board` starts from. -/
def emptyBoard (hw : Int × Int) : Board :=
  List.replicate hw.1.toNat (List.replicate hw.2.toNat 0)

/-- The inner `incr` of `increment_around`: increment a cell if it is in
bounds and not a mine. -/
def incr (hw : Int × Int) (b : Board) (p : Coord) : Board :=
  if isInside hw p ∧ bget b p ≠ -1 then bset b p (bget b p + 1) else b

/-- `increment_around`: bump every king-move neighbor that is not a mine. -/
def incrementAround (hw : Int × Int) (b : Board) (p : Coord) : Board :=
  deltas.foldl (fun b d => incr hw b (p.1 + d.1, p.2 + d.2)) b

/-- The mine-placement loop of `_create_board`: for each sampled position,
set it to `-1` and increment around it. -/
def placeMines (hw : Int × Int) (mines : List Coord) (b : Board) : Board :=
  mines.foldl (fun b m => incrementAround hw (bset b m (-1)) m) b

/-- `Minesweeper._create_board`, with the positions `random.sample` returned
passed in explicitly (the rng is external nondeterminism; `sample` yields
`mineCount` distinct members of the candidate set). -/
def createBoard (hw : Int × Int) (mines : List Coord) : Board :=
  placeMines hw mines (emptyBoard hw)

/-- The candidate set `positions_couples` of `_create_board`: every cell,
minus the initial play if one was given. -/
def candidates (hw : Int × Int) (initial : Option Coord) : List Coord :=
  match initial with
  | none => allPositions hw
  | some p => (allPositions hw).filter fun q => decide (q ≠ p)

/-- `Minesweeper._create_board` including the `random.sample` call, which
raises `ValueError` exactly when the requested sample size exceeds the
population (`mineCount` is a count, hence a `Nat`).  `sampled` stands for the
positions the rng produced in the non-raising case. -/
def createBoardE (hw : Int × Int) (mineCount : Nat) (initial : Option Coord)
    (sampled : List Coord) : Except PyErr Board :=
  if mineCount ≤ (candidates hw initial).length then .ok (createBoard hw sampled)
  else .error .valueError

/-! ### Basic lemmas about positions and counting -/

theorem countP_lt_countP {α : Type} {l : List α} {f g : α → Bool}
    (hfg : ∀ x ∈ l, g x = true → f x = true) {x : α} (hx : x ∈ l)
    (hfx : f x = true) (hgx : g x = false) : l.countP g < l.countP f := by
  induction l with
  | nil => cases hx
  | cons a l ih =>
    rcases List.mem_cons.mp hx with rfl | hx'
    · rw [List.countP_cons, List.countP_cons, hfx, hgx, if_neg Bool.false_ne_true, if_pos rfl]
      have hle : l.countP g ≤ l.countP f :=
        List.countP_mono_left fun y hy => hfg y (List.mem_cons_of_mem _ hy)
      omega
    · rw [List.countP_cons, List.countP_cons]
      have h1 := ih (fun y hy => hfg y (List.mem_cons_of_mem _ hy)) hx'
      have h2 : (if g a then 1 else 0) ≤ (if f a then 1 else 0) := by
        by_cases hga : g a = true
        · rw [hfg a (List.mem_cons_self _ _) hga, hga]
        · simp only [Bool.not_eq_true] at hga
          rw [hga, if_neg Bool.false_ne_true]
          omega
      exact Nat.add_lt_add_of_lt_of_le h1 h2

theorem mem_allPositions {hw : Int × Int} {p : Coord} :
    p ∈ allPositions hw ↔ isInside hw p = true := by
  obtain ⟨x, y⟩ := p
  constructor
  · intro h
    obtain ⟨r, hr, h2⟩ := List.mem_flatMap.mp h
    obtain ⟨c, hc, h3⟩ := List.mem_map.mp h2
    rw [Prod.mk.injEq] at h3
    obtain ⟨h4, h5⟩ := h3
    have hr' := List.mem_range.mp hr
    have hc' := List.mem_range.mp hc
    subst h4; subst h5
    simp only [isInside, Bool.and_eq_true, decide_eq_true_eq]
    refine ⟨⟨⟨?_, ?_⟩, ?_⟩, ?_⟩ <;> omega
  · intro h
    simp only [isInside, Bool.and_eq_true, decide_eq_true_eq] at h
    refine List.mem_flatMap.mpr ⟨x.toNat, List.mem_range.mpr (by omega),
      List.mem_map.mpr ⟨y.toNat, List.mem_range.mpr (by omega), ?_⟩⟩
    rw [Prod.mk.injEq]
    constructor <;> omega

theorem allPositions_length (hw : Int × Int) :
    (allPositions hw).length = hw.1.toNat * hw.2.toNat := by
  simp [allPositions, List.length_flatMap, Function.comp_def, List.map_const',
    List.sum_replicate, mul_comm]

theorem nodup_allPositions (hw : Int × Int) : (allPositions hw).Nodup := by
  unfold allPositions
  rw [List.nodup_flatMap]
  constructor
  · intro r _
    refine (List.nodup_range _).map ?_
    intro a b h
    rw [Prod.mk.injEq] at h
    exact_mod_cast h.2
  · refine (List.nodup_range _).imp ?_
    intro r r' hne q hq1 hq2
    obtain ⟨c, _, h1⟩ := List.mem_map.mp hq1
    obtain ⟨c', _, h2⟩ := List.mem_map.mp hq2
    rw [← h2, Prod.mk.injEq] at h1
    exact hne (by exact_mod_cast h1.1)

theorem freeCount_append_lt {hw : Int × Int} {rev : List Coord} {p : Coord}
    (hp : isInside hw p = true) (hnp : p ∉ rev) :
    freeCount hw (rev ++ [p]) < freeCount hw rev := by
  unfold freeCount
  rw [← List.countP_eq_length_filter, ← List.countP_eq_length_filter]
  refine countP_lt_countP (x := p) ?_ (mem_allPositions.mpr hp) ?_ ?_
  · intro x _ hx
    simp only [decide_eq_true_eq, List.mem_append] at hx ⊢
    exact fun h => hx (Or.inl h)
  · simpa using hnp
  · simp

theorem freeCount_le_append {hw : Int × Int} (rev l : List Coord) :
    freeCount hw (rev ++ l) ≤ freeCount hw rev := by
  unfold freeCount
  rw [← List.countP_eq_length_filter, ← List.countP_eq_length_filter]
  refine List.countP_mono_left ?_
  intro x _ hx
  simp only [decide_eq_true_eq, List.mem_append] at hx ⊢
  exact fun h => hx (Or.inl h)

theorem mem_getAdjacent {hw : Int × Int} {p q : Coord} :
    q ∈ getAdjacent hw p ↔ q ∈ adjacentAll p ∧ isInside hw q = true := by
  simp [getAdjacent, List.mem_filter]

/-! ### The flood-fill region

`Reaches b hw start q` says that the flood-fill started at `start` is supposed
to reach `q`: either `q` is `start` itself, or `q` is an in-bounds neighbor of
a reachable zero-valued cell.  The zero-valued reachable cells form the
connected zero-region of `start` (under king-move adjacency), and the
nonzero-valued reachable cells are exactly that region's one-cell border. -/

inductive Reaches (b : Board) (hw : Int × Int) (start : Coord) : Coord → Prop where
  | refl : Reaches b hw start start
  | step {p q : Coord} : Reaches b hw start p → bget b p = 0 →
      q ∈ getAdjacent hw p → Reaches b hw start q

theorem Reaches.prepend {b : Board} {hw : Int × Int} {pos q x : Coord}
    (h0 : bget b pos = 0) (hq : q ∈ getAdjacent hw pos) :
    Reaches b hw q x → Reaches b hw pos x := by
  intro h
  induction h with
  | refl => exact Reaches.step Reaches.refl h0 hq
  | step _ hp0 hadj ih => exact Reaches.step ih hp0 hadj

/-! ### Correctness of `_spread_empty`

The Python recursion appends to `self._revealed` exactly the positions it
returns, never revisits a cell, and reveals precisely the cells `Reaches`
describes. -/

section SpreadLemmas

variable (b : Board) (hw : Int × Int)

theorem spreadSeq_shape (f : Coord → List Coord → List Coord × List Coord)
    (hf : ∀ q r, (f q r).2 = r ++ (f q r).1) :
    ∀ (qs rev : List Coord), (spreadSeq f qs rev).2 = rev ++ (spreadSeq f qs rev).1
  | [], rev => by simp [spreadSeq]
  | q :: qs, rev => by
    simp only [spreadSeq]
    rw [spreadSeq_shape f hf qs (f q rev).2, hf q rev, List.append_assoc]

theorem spreadAux_shape : ∀ (fuel : Nat) (pos : Coord) (rev : List Coord),
    (spreadAux b hw fuel pos rev).2 = rev ++ (spreadAux b hw fuel pos rev).1 := by
  intro fuel
  induction fuel with
  | zero => intro pos rev; simp [spreadAux]
  | succ n ih =>
    intro pos rev
    simp only [spreadAux]
    split
    · simp
    · split
      · rw [spreadSeq_shape _ (fun q r => ih q r) (adjacentAll pos) (rev ++ [pos])]
        simp
      · simp

theorem spreadSeq_fresh (f : Coord → List Coord → List Coord × List Coord)
    (hshape : ∀ q r, (f q r).2 = r ++ (f q r).1)
    (hfresh : ∀ q r, (f q r).1.Nodup ∧ ∀ x ∈ (f q r).1, x ∉ r) :
    ∀ (qs rev : List Coord),
      (spreadSeq f qs rev).1.Nodup ∧ ∀ x ∈ (spreadSeq f qs rev).1, x ∉ rev
  | [], rev => by simp [spreadSeq]
  | q :: qs, rev => by
    simp only [spreadSeq]
    obtain ⟨hnd1, hfr1⟩ := hfresh q rev
    obtain ⟨hnd2, hfr2⟩ := spreadSeq_fresh f hshape hfresh qs (f q rev).2
    constructor
    · rw [List.nodup_append]
      refine ⟨hnd1, hnd2, ?_⟩
      intro x hx1 hx2
      exact hfr2 x hx2 (by rw [hshape]; exact List.mem_append_right _ hx1)
    · intro x hx
      rcases List.mem_append.mp hx with h | h
      · exact hfr1 x h
      · intro hxrev
        exact hfr2 x h (by rw [hshape]; exact List.mem_append_left _ hxrev)

theorem spreadAux_fresh : ∀ (fuel : Nat) (pos : Coord) (rev : List Coord),
    (spreadAux b hw fuel pos rev).1.Nodup ∧
      ∀ x ∈ (spreadAux b hw fuel pos rev).1, x ∉ rev := by
  intro fuel
  induction fuel with
  | zero => intro pos rev; simp [spreadAux]
  | succ n ih =>
    intro pos rev
    simp only [spreadAux]
    by_cases hg : pos ∈ rev ∨ isInside hw pos = false
    · rw [if_pos hg]; simp
    · rw [if_neg hg]
      have hpos : pos ∉ rev := fun h => hg (Or.inl h)
      split
      · obtain ⟨hnd, hfr⟩ := spreadSeq_fresh (fun q l => spreadAux b hw n q l)
          (fun q r => spreadAux_shape b hw n q r) (fun q r => ih q r)
          (adjacentAll pos) (rev ++ [pos])
        constructor
        · exact List.nodup_cons.mpr
            ⟨fun h => hfr pos h (List.mem_append_right _ (List.mem_singleton_self _)), hnd⟩
        · intro x hx
          rcases List.mem_cons.mp hx with rfl | h
          · exact hpos
          · exact fun hxrev => hfr x h (List.mem_append_left _ hxrev)
      · refine ⟨List.nodup_singleton _, ?_⟩
        intro x hx
        rw [List.mem_singleton] at hx
        subst hx
        exact hpos

theorem spreadAux_mem_imp_inside : ∀ (fuel : Nat) (q : Coord) (rev : List Coord),
    ∀ x ∈ (spreadAux b hw fuel q rev).1, isInside hw q = true := by
  intro fuel q rev x hx
  cases fuel with
  | zero => simp [spreadAux] at hx
  | succ n =>
    simp only [spreadAux] at hx
    by_cases hg : q ∈ rev ∨ isInside hw q = false
    · rw [if_pos hg] at hx; simp at hx
    · cases hq : isInside hw q with
      | false => exact absurd (Or.inr hq) hg
      | true => rfl

theorem spreadSeq_sound (f : Coord → List Coord → List Coord × List Coord)
    (Q : Coord → Prop) :
    ∀ (qs rev : List Coord), (∀ q ∈ qs, ∀ r, ∀ x ∈ (f q r).1, Q x) →
      ∀ x ∈ (spreadSeq f qs rev).1, Q x
  | [], rev => by simp [spreadSeq]
  | q :: qs, rev => by
    intro hf
    simp only [spreadSeq]
    intro x hx
    rcases List.mem_append.mp hx with h | h
    · exact hf q (List.mem_cons_self _ _) _ x h
    · exact spreadSeq_sound f Q qs _ (fun a ha => hf a (List.mem_cons_of_mem _ ha)) x h

theorem spreadAux_sound : ∀ (fuel : Nat) (pos : Coord) (rev : List Coord),
    ∀ x ∈ (spreadAux b hw fuel pos rev).1, Reaches b hw pos x := by
  intro fuel
  induction fuel with
  | zero => intro pos rev x hx; simp [spreadAux] at hx
  | succ n ih =>
    intro pos rev x hx
    simp only [spreadAux] at hx
    by_cases hg : pos ∈ rev ∨ isInside hw pos = false
    · rw [if_pos hg] at hx; simp at hx
    · rw [if_neg hg] at hx
      by_cases hb : bget b pos = 0
      · rw [if_pos hb] at hx
        rcases List.mem_cons.mp hx with rfl | h
        · exact Reaches.refl
        · refine spreadSeq_sound (fun q l => spreadAux b hw n q l) (Reaches b hw pos)
            (adjacentAll pos) (rev ++ [pos]) ?_ x h
          intro q hq r y hy
          have hinq : isInside hw q = true := spreadAux_mem_imp_inside b hw n q r y hy
          exact Reaches.prepend hb (mem_getAdjacent.mpr ⟨hq, hinq⟩) (ih q r y hy)
      · rw [if_neg hb] at hx
        rcases List.mem_singleton.mp hx with rfl
        exact Reaches.refl

theorem spreadAux_mem_self : ∀ (fuel : Nat) (pos : Coord) (rev : List Coord), 1 ≤ fuel →
    (pos ∈ rev ∨ isInside hw pos = true) → pos ∈ (spreadAux b hw fuel pos rev).2 := by
  intro fuel pos rev hfuel hpos
  cases fuel with
  | zero => omega
  | succ n =>
    simp only [spreadAux]
    by_cases hg : pos ∈ rev ∨ isInside hw pos = false
    · rw [if_pos hg]
      rcases hg with h | h
      · exact h
      · rcases hpos with h' | h'
        · exact h'
        · rw [h'] at h; cases h
    · rw [if_neg hg]
      split
      · rw [spreadSeq_shape _ (fun q r => spreadAux_shape b hw n q r)]
        exact List.mem_append_left _ (List.mem_append_right _ (List.mem_singleton_self _))
      · exact List.mem_append_right _ (List.mem_singleton_self _)

theorem spreadSeq_mem (n : Nat) (hn : 1 ≤ n) :
    ∀ (qs rev : List Coord), ∀ q ∈ qs, isInside hw q = true →
      q ∈ (spreadSeq (fun a l => spreadAux b hw n a l) qs rev).2
  | [], rev => by intro q hq; cases hq
  | q' :: qs, rev => by
    intro q hq hqin
    simp only [spreadSeq]
    rcases List.mem_cons.mp hq with rfl | h
    · have h1 : q ∈ (spreadAux b hw n q rev).2 :=
        spreadAux_mem_self b hw n q rev hn (Or.inr hqin)
      rw [spreadSeq_shape _ (fun a r => spreadAux_shape b hw n a r)]
      exact List.mem_append_left _ h1
    · exact spreadSeq_mem n hn qs _ q h hqin

theorem spreadSeq_closed (n : Nat)
    (hstep : ∀ (pos : Coord) (rev : List Coord), freeCount hw rev < n →
      ∀ z ∈ (spreadAux b hw n pos rev).1, bget b z = 0 →
        ∀ q ∈ adjacentAll z, isInside hw q = true → q ∈ (spreadAux b hw n pos rev).2) :
    ∀ (qs rev : List Coord), freeCount hw rev < n →
      ∀ z ∈ (spreadSeq (fun a l => spreadAux b hw n a l) qs rev).1, bget b z = 0 →
        ∀ q ∈ adjacentAll z, isInside hw q = true →
          q ∈ (spreadSeq (fun a l => spreadAux b hw n a l) qs rev).2
  | [], rev => by intro _ z hz; simp [spreadSeq] at hz
  | q' :: qs, rev => by
    intro hfc z hz hz0 q hq hqin
    simp only [spreadSeq] at hz ⊢
    have hfc2 : freeCount hw (spreadAux b hw n q' rev).2 ≤ freeCount hw rev := by
      rw [spreadAux_shape b hw n q' rev]; exact freeCount_le_append _ _
    rcases List.mem_append.mp hz with h | h
    · have hq2 := hstep q' rev hfc z h hz0 q hq hqin
      rw [spreadSeq_shape _ (fun a r => spreadAux_shape b hw n a r)]
      exact List.mem_append_left _ hq2
    · exact spreadSeq_closed n hstep qs _ (lt_of_le_of_lt hfc2 hfc) z h hz0 q hq hqin

theorem spreadAux_closed : ∀ (fuel : Nat) (pos : Coord) (rev : List Coord),
    freeCount hw rev < fuel →
    ∀ z ∈ (spreadAux b hw fuel pos rev).1, bget b z = 0 →
      ∀ q ∈ adjacentAll z, isInside hw q = true → q ∈ (spreadAux b hw fuel pos rev).2 := by
  intro fuel
  induction fuel with
  | zero => intro pos rev h; omega
  | succ n ih =>
    intro pos rev hfc z hz hz0 q hq hqin
    simp only [spreadAux] at hz ⊢
    by_cases hg : pos ∈ rev ∨ isInside hw pos = false
    · rw [if_pos hg] at hz; simp at hz
    · rw [if_neg hg] at hz ⊢
      have hposin : isInside hw pos = true := by
        cases hp : isInside hw pos with
        | false => exact absurd (Or.inr hp) hg
        | true => rfl
      have hposnm : pos ∉ rev := fun h => hg (Or.inl h)
      have hlt : freeCount hw (rev ++ [pos]) < freeCount hw rev :=
        freeCount_append_lt hposin hposnm
      by_cases hb : bget b pos = 0
      · rw [if_pos hb] at hz ⊢
        have hn : 1 ≤ n := by omega
        have hfc' : freeCount hw (rev ++ [pos]) < n := by omega
        rcases List.mem_cons.mp hz with rfl | h
        · exact spreadSeq_mem b hw n hn (adjacentAll z) (rev ++ [z]) q hq hqin
        · exact spreadSeq_closed b hw n (fun p r hpr => ih p r hpr) (adjacentAll pos) _
            hfc' z h hz0 q hq hqin
      · rw [if_neg hb] at hz
        rcases List.mem_singleton.mp hz with rfl
        exact absurd hz0 hb

theorem spreadEmpty_complete (pos : Coord) (rev : List Coord)
    (hin : isInside hw pos = true)
    (hreg : ∀ z, Reaches b hw pos z → bget b z = 0 → z ∉ rev) :
    ∀ q, Reaches b hw pos q → q ∈ (spreadEmpty b hw pos rev).2 := by
  intro q hq
  induction hq with
  | refl => exact spreadAux_mem_self b hw _ pos rev (by omega) (Or.inr hin)
  | @step p q' hrp hp0 hadj ih =>
    have hpfresh : p ∉ rev := hreg p hrp hp0
    have hp1 : p ∈ (spreadEmpty b hw pos rev).1 := by
      have h2 := ih
      unfold spreadEmpty at h2 ⊢
      rw [spreadAux_shape] at h2
      rcases List.mem_append.mp h2 with h | h
      · exact absurd h hpfresh
      · exact h
    obtain ⟨hadjAll, hq'in⟩ := mem_getAdjacent.mp hadj
    exact spreadAux_closed b hw (freeCount hw rev + 1) pos rev (by omega) p hp1 hp0 q' hadjAll hq'in

/-- Full characterization of one `_spread_empty` call, assuming no zero-valued
cell of the region is already revealed (in a reachable game state a revealed
zero cell always has its whole region revealed with it, so an unrevealed
zero-valued target guarantees this). -/
theorem spreadEmpty_spec (pos : Coord) (rev : List Coord)
    (hin : isInside hw pos = true)
    (hreg : ∀ z, Reaches b hw pos z → bget b z = 0 → z ∉ rev) :
    (∀ q, q ∈ (spreadEmpty b hw pos rev).2 ↔ (q ∈ rev ∨ Reaches b hw pos q)) ∧
    (∀ q, q ∈ (spreadEmpty b hw pos rev).1 ↔ (Reaches b hw pos q ∧ q ∉ rev)) ∧
    (spreadEmpty b hw pos rev).1.Nodup := by
  obtain ⟨hnd, hfr⟩ := spreadAux_fresh b hw (freeCount hw rev + 1) pos rev
  refine ⟨?_, ?_, hnd⟩
  · intro q
    constructor
    · intro hq
      unfold spreadEmpty at hq
      rw [spreadAux_shape] at hq
      rcases List.mem_append.mp hq with h | h
      · exact Or.inl h
      · exact Or.inr (spreadAux_sound b hw _ pos rev q h)
    · intro hq
      rcases hq with h | h
      · unfold spreadEmpty
        rw [spreadAux_shape]
        exact List.mem_append_left _ h
      · exact spreadEmpty_complete b hw pos rev hin hreg q h
  · intro q
    constructor
    · intro hq
      exact ⟨spreadAux_sound b hw _ pos rev q hq, hfr q hq⟩
    · rintro ⟨hq, hqrev⟩
      have h2 := spreadEmpty_complete b hw pos rev hin hreg q hq
      unfold spreadEmpty at h2 ⊢
      rw [spreadAux_shape] at h2
      rcases List.mem_append.mp h2 with h | h
      · exact absurd h hqrev
      · exact h

end SpreadLemmas

theorem mem_minesPositions {g : Game} {p : Coord} :
    p ∈ minesPositions g ↔ isInside g.size p = true ∧ bget g.board p = -1 := by
  rw [minesPositions, List.mem_filter, mem_allPositions, decide_eq_true_eq]

/-- Evaluation of `_play` (top level) under the conditions of the spread branch. -/
theorem topPlay_eq_spread {g : Game} {pos : Coord}
    (hover : gameOver g = false) (hin : isInside g.size pos = true)
    (hflag : pos ∉ g.flags) (hnrev : pos ∉ g.revealed) (hnm : pos ∉ minesPositions g)
    (hzero : bget g.board pos = 0) :
    topPlay g pos =
      .ok (⟨.SPREADING, (spreadEmpty g.board g.size pos g.revealed).1, false⟩,
        { g with revealed := (spreadEmpty g.board g.size pos g.revealed).2,
                 history := g.history ++
                   [⟨.SPREADING, (spreadEmpty g.board g.size pos g.revealed).1, false⟩] }) := by
  unfold topPlay
  rw [hover, hin]
  simp only [Bool.false_eq_true, if_false, Bool.true_eq_false, if_neg hflag,
    if_neg hnrev, if_neg hnm, if_pos hzero]

/-- The board invariant the generator establishes: every non-mine in-bounds
cell holds the number of adjacent mines. -/
def consistentBoard (b : Board) (hw : Int × Int) : Prop :=
  ∀ q ∈ allPositions hw, bget b q ≠ -1 →
    bget b q = (((getAdjacent hw q).countP fun r => decide (bget b r = -1) : Nat) : Int)

instance (b : Board) (hw : Int × Int) : Decidable (consistentBoard b hw) := by
  unfold consistentBoard
  infer_instance

theorem reaches_inside {b : Board} {hw : Int × Int} {pos q : Coord}
    (hin : isInside hw pos = true) (h : Reaches b hw pos q) : isInside hw q = true := by
  induction h with
  | refl => exact hin
  | step _ _ hadj _ => exact (mem_getAdjacent.mp hadj).2

theorem reaches_not_mine {b : Board} {hw : Int × Int} {pos : Coord}
    (hcons : consistentBoard b hw) (hin : isInside hw pos = true)
    (h0 : bget b pos = 0) : ∀ q, Reaches b hw pos q → bget b q ≠ -1 := by
  intro q hq
  induction hq with
  | refl => rw [h0]; omega
  | @step p q' hrp hp0 hadj _ =>
    have hpin : isInside hw p = true := reaches_inside hin hrp
    have hcnt := hcons p (mem_allPositions.mpr hpin) (by rw [hp0]; omega)
    rw [hp0] at hcnt
    have hzero : ((getAdjacent hw p).countP fun r => decide (bget b r = -1)) = 0 := by
      omega
    have := (List.countP_eq_zero.mp hzero) q' hadj
    simpa using this

/-! ### Board generation: `_create_board` builds a consistent board -/

theorem isInside_parts {hw : Int × Int} {p : Coord} :
    isInside hw p = true ↔ 0 ≤ p.1 ∧ p.1 < hw.1 ∧ 0 ≤ p.2 ∧ p.2 < hw.2 := by
  simp [isInside, and_assoc]

/-- The generated board stays a `height × width` matrix. -/
def boardShape (hw : Int × Int) (b : Board) : Prop :=
  b.length = hw.1.toNat ∧ ∀ row ∈ b, row.length = hw.2.toNat

theorem emptyBoard_shape (hw : Int × Int) : boardShape hw (emptyBoard hw) :=
  ⟨List.length_replicate _ _, fun row hr => by
    rw [List.eq_of_mem_replicate hr]
    exact List.length_replicate _ _⟩

theorem bget_emptyBoard (hw : Int × Int) (p : Coord) : bget (emptyBoard hw) p = 0 := by
  unfold bget emptyBoard
  simp only [List.getD_eq_getElem?_getD, List.getElem?_replicate]
  by_cases h : p.1.toNat < hw.1.toNat
  · rw [if_pos h, Option.getD_some, List.getElem?_replicate]
    split <;> rfl
  · rw [if_neg h]
    rfl

theorem bset_shape {hw : Int × Int} {b : Board} {p : Coord} {v : Int}
    (hsh : boardShape hw b) (hp : isInside hw p = true) : boardShape hw (bset b p v) := by
  obtain ⟨h1, h2⟩ := hsh
  obtain ⟨hp1, hp2, hp3, hp4⟩ := isInside_parts.mp hp
  have hi : p.1.toNat < b.length := by omega
  constructor
  · rw [bset, List.length_set]
    exact h1
  · intro row hr
    rcases List.mem_or_eq_of_mem_set hr with h | h
    · exact h2 row h
    · subst h
      rw [List.length_set, List.getD_eq_getElem?_getD, List.getElem?_eq_getElem hi]
      exact h2 _ (List.getElem_mem _)

theorem bget_bset_same {hw : Int × Int} {b : Board} {p : Coord} {v : Int}
    (hsh : boardShape hw b) (hp : isInside hw p = true) : bget (bset b p v) p = v := by
  obtain ⟨h1, h2⟩ := hsh
  obtain ⟨hp1, hp2, hp3, hp4⟩ := isInside_parts.mp hp
  have hi : p.1.toNat < b.length := by omega
  have hrow : (b.getD p.1.toNat []).length = hw.2.toNat := by
    rw [List.getD_eq_getElem?_getD, List.getElem?_eq_getElem hi]
    exact h2 _ (List.getElem_mem _)
  have hj : p.2.toNat < (b.getD p.1.toNat []).length := by
    rw [hrow]
    omega
  have hj' : p.2.toNat < (b[p.1.toNat]?.getD []).length := by
    rw [List.getD_eq_getElem?_getD] at hj
    exact hj
  unfold bget bset
  simp only [List.getD_eq_getElem?_getD]
  rw [List.getElem?_set_self hi, Option.getD_some, List.getElem?_set_self hj',
    Option.getD_some]

theorem bget_bset_ne {hw : Int × Int} {b : Board} {p q : Coord} {v : Int}
    (hsh : boardShape hw b) (hp : isInside hw p = true) (hq : isInside hw q = true)
    (hne : q ≠ p) : bget (bset b p v) q = bget b q := by
  obtain ⟨h1, h2⟩ := hsh
  obtain ⟨hp1, hp2, hp3, hp4⟩ := isInside_parts.mp hp
  obtain ⟨hq1, hq2, hq3, hq4⟩ := isInside_parts.mp hq
  by_cases hrow : q.1.toNat = p.1.toNat
  · have hqp1 : q.1 = p.1 := by omega
    have hqp2 : q.2 ≠ p.2 := fun h => hne (Prod.ext hqp1 h)
    have hj : q.2.toNat ≠ p.2.toNat := by omega
    have hi : p.1.toNat < b.length := by omega
    unfold bget bset
    simp only [List.getD_eq_getElem?_getD]
    rw [hrow, List.getElem?_set_self hi, Option.getD_some,
      List.getElem?_set_ne (Ne.symm hj)]
  · unfold bget bset
    simp only [List.getD_eq_getElem?_getD]
    rw [List.getElem?_set_ne (fun h => hrow h.symm)]

theorem incr_shape {hw : Int × Int} {b : Board} {r : Coord}
    (hsh : boardShape hw b) : boardShape hw (incr hw b r) := by
  unfold incr
  split
  · rename_i h
    exact bset_shape hsh h.1
  · exact hsh

theorem bget_incr_ne {hw : Int × Int} {b : Board} {r q : Coord}
    (hsh : boardShape hw b) (hq : isInside hw q = true) (hne : q ≠ r) :
    bget (incr hw b r) q = bget b q := by
  unfold incr
  split
  · rename_i h
    exact bget_bset_ne hsh h.1 hq hne
  · rfl

theorem bget_incr_self {hw : Int × Int} {b : Board} {r : Coord}
    (hsh : boardShape hw b) (hr : isInside hw r = true) :
    bget (incr hw b r) r = if bget b r ≠ -1 then bget b r + 1 else bget b r := by
  unfold incr
  by_cases hm : bget b r ≠ -1
  · rw [if_pos ⟨hr, hm⟩, if_pos hm]
    exact bget_bset_same hsh hr
  · rw [if_neg (fun hc => hm hc.2), if_neg hm]

theorem foldIncr_shape {hw : Int × Int} {m : Coord} :
    ∀ (ds : List (Int × Int)) (b : Board), boardShape hw b →
      boardShape hw (ds.foldl (fun b d => incr hw b (m.1 + d.1, m.2 + d.2)) b)
  | [], _ => fun h => h
  | _ :: ds, _ => fun h => foldIncr_shape ds _ (incr_shape h)

theorem foldIncr_ne {hw : Int × Int} {m q : Coord} :
    ∀ (ds : List (Int × Int)) (b : Board), boardShape hw b → isInside hw q = true →
      (∀ d ∈ ds, q ≠ (m.1 + d.1, m.2 + d.2)) →
      bget (ds.foldl (fun b d => incr hw b (m.1 + d.1, m.2 + d.2)) b) q = bget b q
  | [], _ => fun _ _ _ => rfl
  | d :: ds, b => fun hsh hq hne => by
    rw [List.foldl_cons,
      foldIncr_ne ds _ (incr_shape hsh) hq (fun d' hd' => hne d' (List.mem_cons_of_mem _ hd')),
      bget_incr_ne hsh hq (hne d (List.mem_cons_self _ _))]

theorem foldIncr_char {hw : Int × Int} {m q : Coord} :
    ∀ (ds : List (Int × Int)) (b : Board), ds.Nodup → boardShape hw b →
      isInside hw q = true →
      bget (ds.foldl (fun b d => incr hw b (m.1 + d.1, m.2 + d.2)) b) q =
        if (∃ d ∈ ds, q = (m.1 + d.1, m.2 + d.2)) ∧ bget b q ≠ -1
        then bget b q + 1 else bget b q
  | [], b => by
    intro _ _ _
    simp
  | d :: ds, b => fun hnd hsh hq => by
    rw [List.foldl_cons]
    by_cases hqd : q = (m.1 + d.1, m.2 + d.2)
    · have hrest : ∀ d' ∈ ds, q ≠ (m.1 + d'.1, m.2 + d'.2) := by
        intro d' hd' hcon
        apply (List.nodup_cons.mp hnd).1
        have hdd : d' = d := by
          rw [hqd] at hcon
          obtain ⟨dx, dy⟩ := d
          obtain ⟨ex, ey⟩ := d'
          rw [Prod.mk.injEq] at hcon ⊢
          omega
        rw [← hdd]
        exact hd'
      rw [foldIncr_ne ds _ (incr_shape hsh) hq hrest]
      subst hqd
      rw [bget_incr_self hsh hq]
      have hex : (∃ d' ∈ d :: ds,
          (m.1 + d.1, m.2 + d.2) = (m.1 + d'.1, m.2 + d'.2)) :=
        ⟨d, List.mem_cons_self _ _, rfl⟩
      by_cases hm : bget b (m.1 + d.1, m.2 + d.2) ≠ -1
      · rw [if_pos hm, if_pos ⟨hex, hm⟩]
      · rw [if_neg hm, if_neg (fun hc => hm hc.2)]
    · rw [foldIncr_char ds _ (List.nodup_cons.mp hnd).2 (incr_shape hsh) hq,
        bget_incr_ne hsh hq hqd]
      have hiff : (∃ d' ∈ ds, q = (m.1 + d'.1, m.2 + d'.2)) ↔
          (∃ d' ∈ d :: ds, q = (m.1 + d'.1, m.2 + d'.2)) := by
        constructor
        · rintro ⟨d', h1, h2⟩
          exact ⟨d', List.mem_cons_of_mem _ h1, h2⟩
        · rintro ⟨d', h1, h2⟩
          rcases List.mem_cons.mp h1 with rfl | h1'
          · exact absurd h2 hqd
          · exact ⟨d', h1', h2⟩
      simp only [hiff]

theorem incrementAround_shape {hw : Int × Int} {b : Board} {m : Coord}
    (hsh : boardShape hw b) : boardShape hw (incrementAround hw b m) :=
  foldIncr_shape deltas b hsh

theorem incrementAround_char {hw : Int × Int} {b : Board} {m q : Coord}
    (hsh : boardShape hw b) (hq : isInside hw q = true) :
    bget (incrementAround hw b m) q =
      if q ∈ getAdjacent hw m ∧ bget b q ≠ -1 then bget b q + 1 else bget b q := by
  unfold incrementAround
  rw [foldIncr_char deltas b (by decide) hsh hq]
  have hiff : (∃ d ∈ deltas, q = (m.1 + d.1, m.2 + d.2)) ↔ q ∈ getAdjacent hw m := by
    rw [mem_getAdjacent]
    constructor
    · rintro ⟨d, hd, rfl⟩
      exact ⟨List.mem_map.mpr ⟨d, hd, rfl⟩, hq⟩
    · rintro ⟨hmem, -⟩
      obtain ⟨d, hd, h⟩ := List.mem_map.mp hmem
      exact ⟨d, hd, h.symm⟩
  simp only [hiff]

theorem mem_deltas_cases {d1 d2 : Int} (hd : (d1, d2) ∈ deltas) :
    (d1 = -1 ∧ d2 = 0) ∨ (d1 = -1 ∧ d2 = 1) ∨ (d1 = 0 ∧ d2 = -1) ∨ (d1 = 0 ∧ d2 = 1) ∨
    (d1 = 1 ∧ d2 = -1) ∨ (d1 = 1 ∧ d2 = 0) ∨ (d1 = 1 ∧ d2 = 1) ∨ (d1 = -1 ∧ d2 = -1) := by
  simpa [deltas, Prod.mk.injEq] using hd

theorem self_not_mem_adjacentAll (m : Coord) : m ∉ adjacentAll m := by
  intro h
  obtain ⟨⟨d1, d2⟩, hd, hEq⟩ := List.mem_map.mp h
  obtain ⟨m1, m2⟩ := m
  rw [Prod.mk.injEq] at hEq
  have hd' := mem_deltas_cases hd
  omega

theorem mem_adjacentAll_symm {m q : Coord} : q ∈ adjacentAll m ↔ m ∈ adjacentAll q := by
  obtain ⟨m1, m2⟩ := m
  obtain ⟨q1, q2⟩ := q
  constructor <;> intro h <;> obtain ⟨⟨d1, d2⟩, hd, hEq⟩ := List.mem_map.mp h <;>
  · rw [Prod.mk.injEq] at hEq
    have hd' := mem_deltas_cases hd
    refine List.mem_map.mpr ⟨(-d1, -d2), ?_, ?_⟩
    · rcases hd' with h | h | h | h | h | h | h | h <;>
        (obtain ⟨rfl, rfl⟩ := h) <;> decide
    · rw [Prod.mk.injEq]
      constructor <;> omega

theorem mem_getAdjacent_symm {hw : Int × Int} {m q : Coord}
    (hm : isInside hw m = true) (hq : isInside hw q = true) :
    q ∈ getAdjacent hw m ↔ m ∈ getAdjacent hw q := by
  rw [mem_getAdjacent, mem_getAdjacent, mem_adjacentAll_symm]
  simp [hm, hq]

theorem getAdjacent_nodup (hw : Int × Int) (m : Coord) : (getAdjacent hw m).Nodup := by
  unfold getAdjacent adjacentAll
  refine List.Nodup.filter _ (List.Nodup.map ?_ (by decide))
  intro d1 d2 h
  obtain ⟨dx, dy⟩ := d1
  obtain ⟨ex, ey⟩ := d2
  rw [Prod.mk.injEq] at h ⊢
  constructor <;> omega

theorem countP_mem_append_singleton (l : List Coord) (x : Coord)
    (done : List Coord) (hx : x ∉ done) :
    l.countP (fun r => decide (r ∈ done ++ [x])) =
      l.countP (fun r => decide (r ∈ done)) + l.countP (fun r => decide (r = x)) := by
  induction l with
  | nil => simp
  | cons a l ih =>
    rw [List.countP_cons, List.countP_cons, List.countP_cons, ih]
    by_cases hax : a = x
    · subst hax
      simp [hx]
      omega
    · simp [hax]
      omega

theorem countP_eq_ite_of_nodup {l : List Coord} (h : l.Nodup)
    (x : Coord) : l.countP (fun r => decide (r = x)) = if x ∈ l then 1 else 0 := by
  induction l with
  | nil => simp
  | cons a l ih =>
    rw [List.countP_cons]
    obtain ⟨ha, hnd⟩ := List.nodup_cons.mp h
    rw [ih hnd]
    by_cases hax : x = a
    · subst hax
      simp [ha]
    · simp [hax, Ne.symm hax]

theorem placeMines_char {hw : Int × Int} :
    ∀ (ms done : List Coord) (b : Board), boardShape hw b → (done ++ ms).Nodup →
      (∀ m ∈ ms, isInside hw m = true) →
      (∀ q, isInside hw q = true →
        bget b q = if q ∈ done then -1
          else (((getAdjacent hw q).countP fun r => decide (r ∈ done) : Nat) : Int)) →
      ∀ q, isInside hw q = true →
        bget (placeMines hw ms b) q = if q ∈ done ++ ms then -1
          else (((getAdjacent hw q).countP fun r => decide (r ∈ done ++ ms) : Nat) : Int)
  | [], done, b => by
    intro hsh hnd hms hinv q hq
    show bget b q = _
    rw [hinv q hq]
    simp
  | m :: ms, done, b => by
    intro hsh hnd hms hinv q hq
    have hmin : isInside hw m = true := hms m (List.mem_cons_self _ _)
    have hmdone : m ∉ done := by
      intro h
      exact (List.nodup_append.mp hnd).2.2 h (List.mem_cons_self _ _)
    have hsh1 : boardShape hw (bset b m (-1)) := bset_shape hsh hmin
    have hsh2 : boardShape hw (incrementAround hw (bset b m (-1)) m) :=
      incrementAround_shape hsh1
    have hb1 : ∀ q', isInside hw q' = true →
        bget (bset b m (-1)) q' = if q' = m then -1 else bget b q' := by
      intro q' hq'
      by_cases h : q' = m
      · rw [if_pos h, h]
        exact bget_bset_same hsh hmin
      · rw [if_neg h]
        exact bget_bset_ne hsh hmin hq' h
    have hinv2 : ∀ q', isInside hw q' = true →
        bget (incrementAround hw (bset b m (-1)) m) q' = if q' ∈ done ++ [m] then -1
          else (((getAdjacent hw q').countP fun r => decide (r ∈ done ++ [m]) : Nat) : Int) := by
      intro q' hq'
      rw [incrementAround_char hsh1 hq']
      by_cases hqm : q' = m
      · subst hqm
        have hnadj : q' ∉ getAdjacent hw q' := by
          rw [mem_getAdjacent]
          exact fun hc => self_not_mem_adjacentAll q' hc.1
        rw [if_neg (fun hc => hnadj hc.1), hb1 q' hq', if_pos rfl,
          if_pos (List.mem_append_right _ (List.mem_singleton_self _))]
      · rw [hb1 q' hq', if_neg hqm]
        by_cases hdone : q' ∈ done
        · rw [hinv q' hq', if_pos hdone,
            if_neg (by
              rintro ⟨-, hc⟩
              exact hc rfl),
            if_pos (List.mem_append_left _ hdone)]
        · have hq'notin : q' ∉ done ++ [m] := by
            intro hc
            rcases List.mem_append.mp hc with hc' | hc'
            · exact hdone hc'
            · exact hqm (List.mem_singleton.mp hc')
          rw [hinv q' hq', if_neg hdone, if_neg hq'notin,
            countP_mem_append_singleton _ _ _ hmdone,
            countP_eq_ite_of_nodup (getAdjacent_nodup hw q') m]
          have hsymm := mem_getAdjacent_symm hq' hmin
          by_cases hadj : q' ∈ getAdjacent hw m
          · rw [if_pos ⟨hadj, by omega⟩, if_pos (hsymm.mpr hadj)]
            push_cast
            ring
          · rw [if_neg (fun hc => hadj hc.1), if_neg (fun hc => hadj (hsymm.mp hc))]
            push_cast
            ring
    have hrec := placeMines_char ms (done ++ [m])
      (incrementAround hw (bset b m (-1)) m) hsh2
      (by rw [List.append_assoc]; exact hnd)
      (fun m' hm' => hms m' (List.mem_cons_of_mem _ hm')) hinv2 q hq
    rw [List.append_assoc] at hrec
    exact hrec

theorem createBoard_char {hw : Int × Int} {mines : List Coord} (hnd : mines.Nodup)
    (hin : ∀ m ∈ mines, isInside hw m = true) :
    ∀ q, isInside hw q = true →
      bget (createBoard hw mines) q = if q ∈ mines then -1
        else (((getAdjacent hw q).countP fun r => decide (r ∈ mines) : Nat) : Int) := by
  intro q hq
  have h := placeMines_char mines [] (emptyBoard hw) (emptyBoard_shape hw)
    (by simpa using hnd) hin
    (fun q' hq' => by
      rw [bget_emptyBoard]
      simp) q hq
  simpa using h

/-! ### Claims C4 and C9: board generation -/

theorem candidates_subset {hw : Int × Int} {initial : Option Coord} {m : Coord}
    (h : m ∈ candidates hw initial) :
    m ∈ allPositions hw ∧ ∀ p, initial = some p → m ≠ p := by
  cases initial with
  | none => exact ⟨h, fun p hp => Option.noConfusion hp⟩
  | some p0 =>
    obtain ⟨h1, h2⟩ := List.mem_filter.mp h
    refine ⟨h1, ?_⟩
    intro p hp
    injection hp with hp
    subst hp
    simpa using h2

theorem countP_mem_of_nodup (l : List Coord) : ∀ (ms : List Coord), l.Nodup → ms.Nodup →
    (∀ m ∈ ms, m ∈ l) → l.countP (fun p => decide (p ∈ ms)) = ms.length
  | [] => by
    intro _ _ _
    simp
  | m :: ms => fun hl hms hsub => by
    obtain ⟨hm, hms'⟩ := List.nodup_cons.mp hms
    have h1 : l.countP (fun p => decide (p ∈ m :: ms)) =
        l.countP (fun p => decide (p ∈ ms ++ [m])) := by
      refine List.countP_congr ?_
      intro a _
      simp only [decide_eq_true_eq, List.mem_cons, List.mem_append, List.mem_singleton]
      constructor
      · rintro (h | h)
        · exact Or.inr (Or.inl h)
        · exact Or.inl h
      · rintro (h | h | h)
        · exact Or.inr h
        · exact Or.inl h
        · exact absurd h (List.not_mem_nil a)
    rw [h1, countP_mem_append_singleton l m ms hm, countP_eq_ite_of_nodup hl m,
      if_pos (hsub m (List.mem_cons_self _ _)),
      countP_mem_of_nodup l ms hl hms' (fun x hx => hsub x (List.mem_cons_of_mem _ hx))]
    rfl

/-- **C4**: whatever distinct candidate positions `random.sample` returns (its
contract), the generated board has exactly `mineCount` cells of value `-1`,
the safe initial cell (excluded from the candidates) is not a mine, and every
non-mine cell's value is the number of its in-bounds king-move neighbors that
are mines. -/
theorem claim4_board_generation (hw : Int × Int) (mineCount : Nat) (initial : Option Coord)
    (mines : List Coord) (hnd : mines.Nodup)
    (hsub : ∀ m ∈ mines, m ∈ candidates hw initial)
    (hlen : mines.length = mineCount) :
    ((allPositions hw).filter fun p =>
        decide (bget (createBoard hw mines) p = -1)).length = mineCount ∧
    (∀ p, initial = some p → isInside hw p = true → bget (createBoard hw mines) p ≠ -1) ∧
    consistentBoard (createBoard hw mines) hw := by
  have hminesin : ∀ m ∈ mines, isInside hw m = true := fun m hm =>
    mem_allPositions.mp (candidates_subset (hsub m hm)).1
  have hchar := createBoard_char hnd hminesin
  refine ⟨?_, ?_, ?_⟩
  · have heq : ∀ p ∈ allPositions hw,
        (decide (bget (createBoard hw mines) p = -1)) = (decide (p ∈ mines)) := by
      intro p hp
      have hchar' := hchar p (mem_allPositions.mp hp)
      by_cases hm : p ∈ mines
      · simp [hchar', hm]
      · rw [hchar', if_neg hm]
        have hne : (((getAdjacent hw p).countP fun r =>
            decide (r ∈ mines) : Nat) : Int) ≠ -1 := by omega
        simp [hne, hm]
    rw [List.filter_congr heq, ← List.countP_eq_length_filter,
      countP_mem_of_nodup (allPositions hw) mines (nodup_allPositions hw) hnd
        (fun m hm => (candidates_subset (hsub m hm)).1), hlen]
  · intro p hini hpin
    have hpm : p ∉ mines := fun hm => (candidates_subset (hsub p hm)).2 p hini rfl
    rw [hchar p hpin, if_neg hpm]
    omega
  · intro q hq hnm
    have hqin := mem_allPositions.mp hq
    have hchar' := hchar q hqin
    by_cases hm : q ∈ mines
    · rw [hchar', if_pos hm] at hnm
      exact absurd rfl hnm
    · rw [hchar', if_neg hm]
      congr 1
      refine List.countP_congr ?_
      intro r hr
      have hrin : isInside hw r = true := (mem_getAdjacent.mp hr).2
      have hcr := hchar r hrin
      by_cases hrm : r ∈ mines
      · simp [hcr, hrm]
      · rw [hcr, if_neg hrm]
        have hne : (((getAdjacent hw r).countP fun a =>
            decide (a ∈ mines) : Nat) : Int) ≠ -1 := by omega
        simp [hne, hrm]

/-- The mine set of the repository's seed-10 test board. -/
def mines5 : List Coord := [(1, 2), (2, 1), (4, 0), (3, 4), (4, 4)]

/-- Witness for C4 on the 5×5 test configuration with safe cell `(0, 0)`. -/
theorem claim4_witness :
    (mines5.Nodup ∧ (∀ m ∈ mines5, m ∈ candidates (5, 5) (some (0, 0))) ∧
      mines5.length = 5) ∧
    (((allPositions (5, 5)).filter fun p =>
        decide (bget (createBoard (5, 5) mines5) p = -1)).length = 5 ∧
      (∀ p, (some ((0, 0) : Coord) : Option Coord) = some p → isInside (5, 5) p = true →
        bget (createBoard (5, 5) mines5) p ≠ -1) ∧
      consistentBoard (createBoard (5, 5) mines5) (5, 5)) :=
  ⟨⟨by decide, by decide, by decide⟩,
    claim4_board_generation (5, 5) 5 (some (0, 0)) mines5 (by decide) (by decide)
      (by decide)⟩

theorem candidates_length {hw : Int × Int} {initial : Option Coord}
    (hin : ∀ p, initial = some p → isInside hw p = true) :
    (candidates hw initial).length =
      hw.1.toNat * hw.2.toNat - (if initial.isSome then 1 else 0) := by
  cases initial with
  | none => simp [candidates, allPositions_length]
  | some p =>
    show ((allPositions hw).filter fun q => decide (q ≠ p)).length = _
    rw [← List.countP_eq_length_filter]
    have hp : p ∈ allPositions hw := mem_allPositions.mpr (hin p rfl)
    have hsplit := List.length_eq_countP_add_countP (fun q => decide (q = p)) (allPositions hw)
    have h1 : (allPositions hw).countP (fun q => decide (q = p)) = 1 := by
      rw [countP_eq_ite_of_nodup (nodup_allPositions hw) p, if_pos hp]
    have h2 : (allPositions hw).countP (fun q => decide (q ≠ p)) =
        (allPositions hw).countP (fun a => decide ¬((fun q => decide (q = p)) a = true)) := by
      refine List.countP_congr ?_
      intro a _
      simp
    rw [allPositions_length] at hsplit
    rw [h2]
    simp only [Option.isSome_some, if_pos]
    omega

/-- **C9**: `_create_board` fails (the `ValueError` that `random.sample`
raises, the spec's `ConfigurationError`) exactly when the requested mine count
exceeds the number of candidate cells — `height·width`, minus one when a safe
first cell inside the board is given; otherwise it returns a board. -/
theorem claim9_generation_error (hw : Int × Int) (mineCount : Nat) (initial : Option Coord)
    (sampled : List Coord) (hin : ∀ p, initial = some p → isInside hw p = true) :
    ((∃ b, createBoardE hw mineCount initial sampled = .ok b) ↔
      mineCount ≤ hw.1.toNat * hw.2.toNat - (if initial.isSome then 1 else 0)) ∧
    (createBoardE hw mineCount initial sampled = .error .valueError ↔
      hw.1.toNat * hw.2.toNat - (if initial.isSome then 1 else 0) < mineCount) := by
  unfold createBoardE
  rw [candidates_length hin]
  constructor
  · constructor
    · rintro ⟨b, hb⟩
      by_cases hle : mineCount ≤ hw.1.toNat * hw.2.toNat - (if initial.isSome then 1 else 0)
      · exact hle
      · rw [if_neg hle] at hb
        exact Except.noConfusion hb
    · intro hle
      rw [if_pos hle]
      exact ⟨_, rfl⟩
  · constructor
    · intro hb
      by_cases hle : mineCount ≤ hw.1.toNat * hw.2.toNat - (if initial.isSome then 1 else 0)
      · rw [if_pos hle] at hb
        exact Except.noConfusion hb
      · omega
    · intro hlt
      rw [if_neg (by omega)]

/-- Witness for C9: a 5×5 board with a safe cell has 24 candidate cells, so 24
mines are fine and 25 raise. -/
theorem claim9_witness :
    ((∃ b, createBoardE (5, 5) 24 (some (0, 0)) mines5 = .ok b) ↔
      24 ≤ (5 : Int).toNat * (5 : Int).toNat - (if (some ((0, 0) : Coord)).isSome then 1 else 0)) ∧
    (createBoardE (5, 5) 24 (some (0, 0)) mines5 = .error .valueError ↔
      (5 : Int).toNat * (5 : Int).toNat - (if (some ((0, 0) : Coord)).isSome then 1 else 0) < 24) :=
  claim9_generation_error (5, 5) 24 (some (0, 0)) mines5
    (fun p hp => by cases hp; decide)

/-! ### Concrete instances used as witnesses

`tb` is the 5×5 seed-10 board pinned down by the repository's test-suite
(`test_random_seed_1`); `tg` is a fresh game on it. -/

def tb : Board :=
  [[0, 1, 1, 1, 0],
   [1, 2, -1, 1, 0],
   [1, -1, 2, 2, 1],
   [2, 2, 1, 2, -1],
   [-1, 1, 0, 2, -1]]

def tg : Game := ⟨(5, 5), tb, [], [], []⟩

/-- Sanity: the embedded `_create_board` rebuilds `tb` from its mine set, and
the embedded spread reproduces `test_empty_play`. -/
theorem tb_check :
    createBoard (5, 5) [(1, 2), (2, 1), (4, 0), (3, 4), (4, 4)] = tb ∧
      (spreadEmpty tb (5, 5) (0, 0) []).2 = [(0, 0), (0, 1), (1, 0), (1, 1)] := by
  decide

/-- A 1×3 all-zero board with a flag in the middle cell (the state after
`toggle_flag(0, 1)` on a fresh mine-free game). -/
def flaggedZeroGame : Game :=
  ⟨(1, 3), [[0, 0, 0]], [(0, 1)], [], [⟨.FLAG_REMOVED, [(0, 1)], false⟩]⟩

/-! ### Claim C2 -/

/-- **C2**: a top-level play on an in-bounds, unflagged, zero-valued cell
returns a spreading record; afterwards the revealed list holds exactly the old
cells plus the `Reaches` set of the played cell (its connected zero-region
together with the region's one-cell border of nonzero cells); no cell is
revealed twice (the record is duplicate-free); and the record's positions are
exactly the newly revealed coordinates.  The hypothesis `hreg` renders
"unrevealed": no zero-valued cell of the region is revealed yet (in a
reachable game state a revealed zero-valued cell always comes with its whole
region, so an unrevealed zero target implies this). -/
theorem claim2_spread_play (g : Game) (pos : Coord)
    (hover : gameOver g = false)
    (hin : isInside g.size pos = true)
    (hflag : pos ∉ g.flags)
    (hzero : bget g.board pos = 0)
    (hreg : ∀ z, Reaches g.board g.size pos z → bget g.board z = 0 → z ∉ g.revealed) :
    ∃ p g', topPlay g pos = .ok (p, g') ∧ p.type = .SPREADING ∧
      p.positions.Nodup ∧
      (∀ q, q ∈ g'.revealed ↔ (q ∈ g.revealed ∨ Reaches g.board g.size pos q)) ∧
      (∀ q, q ∈ p.positions ↔ (Reaches g.board g.size pos q ∧ q ∉ g.revealed)) := by
  have hnrev : pos ∉ g.revealed := hreg pos Reaches.refl hzero
  have hnm : pos ∉ minesPositions g := by
    rw [mem_minesPositions]
    rintro ⟨-, h⟩
    rw [hzero] at h
    exact absurd h (by decide)
  obtain ⟨hrev_iff, hpos_iff, hnodup⟩ :=
    spreadEmpty_spec g.board g.size pos g.revealed hin hreg
  exact ⟨_, _, topPlay_eq_spread hover hin hflag hnrev hnm hzero, rfl, hnodup,
    hrev_iff, hpos_iff⟩

/-- Witness for C2: a fresh game on the test board, played at the zero cell
`(0, 0)`. -/
theorem claim2_witness :
    (gameOver tg = false ∧ isInside tg.size (0, 0) = true ∧ (0, 0) ∉ tg.flags ∧
      bget tg.board (0, 0) = 0) ∧
    (∃ p g', topPlay tg (0, 0) = .ok (p, g') ∧ p.type = .SPREADING ∧
      p.positions.Nodup ∧
      (∀ q, q ∈ g'.revealed ↔ (q ∈ tg.revealed ∨ Reaches tg.board tg.size (0, 0) q)) ∧
      (∀ q, q ∈ p.positions ↔ (Reaches tg.board tg.size (0, 0) q ∧ q ∉ tg.revealed))) :=
  ⟨⟨by decide, by decide, by decide, by decide⟩,
    claim2_spread_play tg (0, 0) (by decide) (by decide) (by decide) (by decide)
      (fun z _ _ h => (List.not_mem_nil z) h)⟩

/-! ### Claim C8 -/

/-- **C8 counterexample**: the flood-fill does *not* skip flagged cells; on a
1×3 all-zero board with `(0, 1)` flagged, playing `(0, 0)` reveals the flagged
cell `(0, 1)` (its only guard is "already revealed or out of bounds"). -/
theorem claim8_counterexample :
    (0, 1) ∈ flaggedZeroGame.flags ∧
    topPlay flaggedZeroGame (0, 0) =
      .ok (⟨.SPREADING, [(0, 0), (0, 1), (0, 2)], false⟩,
        ⟨(1, 3), [[0, 0, 0]], [(0, 1)], [(0, 0), (0, 1), (0, 2)],
          [⟨.FLAG_REMOVED, [(0, 1)], false⟩,
           ⟨.SPREADING, [(0, 0), (0, 1), (0, 2)], false⟩]⟩) ∧
    (0, 1) ∈ (⟨(1, 3), [[0, 0, 0]], [(0, 1)], [(0, 0), (0, 1), (0, 2)],
          [⟨.FLAG_REMOVED, [(0, 1)], false⟩,
           ⟨.SPREADING, [(0, 0), (0, 1), (0, 2)], false⟩]⟩ : Game).revealed := by
  decide

/-- **C8 (amended)**: `_spread_empty` checks only "already revealed or out of
bounds", so a flagged cell belonging to the zero-region (or its border) *is*
revealed by the spread; only the top-level played cell is protected by the
flag check in `_play`. -/
theorem claim8_amended (g : Game) (pos q : Coord)
    (hover : gameOver g = false)
    (hin : isInside g.size pos = true)
    (hflag : pos ∉ g.flags)
    (hzero : bget g.board pos = 0)
    (hreg : ∀ z, Reaches g.board g.size pos z → bget g.board z = 0 → z ∉ g.revealed)
    (hq : Reaches g.board g.size pos q) (hqflag : q ∈ g.flags) :
    ∃ p g', topPlay g pos = .ok (p, g') ∧ q ∈ g.flags ∧ q ∈ g'.revealed := by
  have hnrev : pos ∉ g.revealed := hreg pos Reaches.refl hzero
  have hnm : pos ∉ minesPositions g := by
    rw [mem_minesPositions]
    rintro ⟨-, h⟩
    rw [hzero] at h
    exact absurd h (by decide)
  refine ⟨_, _, topPlay_eq_spread hover hin hflag hnrev hnm hzero, hqflag, ?_⟩
  exact spreadEmpty_complete g.board g.size pos g.revealed hin hreg q hq

/-- Witness for the amended C8, on the 1×3 flagged board. -/
theorem claim8_amended_witness :
    (gameOver flaggedZeroGame = false ∧ (0, 1) ∈ flaggedZeroGame.flags ∧
      bget flaggedZeroGame.board (0, 0) = 0) ∧
    (∃ p g', topPlay flaggedZeroGame (0, 0) = .ok (p, g') ∧
      (0, 1) ∈ flaggedZeroGame.flags ∧ (0, 1) ∈ g'.revealed) :=
  ⟨⟨by decide, by decide, by decide⟩,
    claim8_amended flaggedZeroGame (0, 0) (0, 1) (by decide) (by decide) (by decide)
      (by decide) (fun z _ _ h => (List.not_mem_nil z) h)
      (Reaches.step Reaches.refl (by decide) (by decide)) (by decide)⟩

/-! ### State lemmas and the nested play used by chords -/

theorem wonB_iff {g : Game} : wonB g = true ↔
    g.flags.toFinset = (minesPositions g).toFinset ∧
    g.revealed.toFinset = (nonMinePositions g).toFinset := by
  simp [wonB]

theorem not_gameOver_parts {g : Game} (h : gameOver g = false) :
    wonB g = false ∧ lastBomb g.history = false := by
  unfold gameOver stateOf at h
  by_cases hw : wonB g = true
  · rw [if_pos hw] at h
    simp at h
  · by_cases hl : lastBomb g.history = true
    · rw [if_neg hw, if_pos hl] at h
      simp at h
    · exact ⟨by simpa using hw, by simpa using hl⟩

theorem gameOver_true_cases {g : Game} (h : gameOver g = true) :
    wonB g = true ∨ lastBomb g.history = true := by
  by_cases hw : wonB g = true
  · exact Or.inl hw
  · by_cases hl : lastBomb g.history = true
    · exact Or.inr hl
    · unfold gameOver stateOf at h
      rw [if_neg hw, if_neg hl] at h
      simp at h

/-- Exhaustive evaluation of `_play(..., from_chord=True)`. -/
theorem nestedPlay_eq (g : Game) (pos : Coord) :
    (gameOver g = true ∧ nestedPlay g pos = .ok (⟨.NOTHING, [pos], false⟩, g)) ∨
    (gameOver g = false ∧ isInside g.size pos = false ∧
      nestedPlay g pos = .error .valueError) ∨
    (gameOver g = false ∧ isInside g.size pos = true ∧ pos ∈ g.flags ∧
      nestedPlay g pos = .ok (⟨.NOTHING, [pos], false⟩, g)) ∨
    (gameOver g = false ∧ isInside g.size pos = true ∧ pos ∉ g.flags ∧
      bget g.board pos = -1 ∧
      nestedPlay g pos = .ok (⟨.POSITION_REVEALED, [pos], true⟩,
        { g with revealed := g.revealed ++ [pos] })) ∨
    (gameOver g = false ∧ isInside g.size pos = true ∧ pos ∉ g.flags ∧
      bget g.board pos ≠ -1 ∧ bget g.board pos = 0 ∧
      nestedPlay g pos = .ok (⟨.SPREADING, (spreadEmpty g.board g.size pos g.revealed).1, false⟩,
        { g with revealed := (spreadEmpty g.board g.size pos g.revealed).2 })) ∨
    (gameOver g = false ∧ isInside g.size pos = true ∧ pos ∉ g.flags ∧
      bget g.board pos ≠ -1 ∧ bget g.board pos ≠ 0 ∧
      nestedPlay g pos = .ok (⟨.POSITION_REVEALED, [pos], false⟩,
        { g with revealed := g.revealed ++ [pos] })) := by
  by_cases h1 : gameOver g = true
  · exact Or.inl ⟨h1, by unfold nestedPlay; rw [if_pos h1]⟩
  · have h1f : gameOver g = false := by simpa using h1
    by_cases h2 : isInside g.size pos = true
    · by_cases h3 : pos ∈ g.flags
      · refine Or.inr (Or.inr (Or.inl ⟨h1f, h2, h3, ?_⟩))
        unfold nestedPlay
        rw [if_neg h1, if_neg (by rw [h2]; exact Bool.noConfusion), if_pos h3]
      · by_cases h4 : bget g.board pos = -1
        · refine Or.inr (Or.inr (Or.inr (Or.inl ⟨h1f, h2, h3, h4, ?_⟩)))
          unfold nestedPlay
          rw [if_neg h1, if_neg (by rw [h2]; exact Bool.noConfusion), if_neg h3,
            if_pos (mem_minesPositions.mpr ⟨h2, h4⟩)]
        · by_cases h5 : bget g.board pos = 0
          · refine Or.inr (Or.inr (Or.inr (Or.inr (Or.inl ⟨h1f, h2, h3, h4, h5, ?_⟩))))
            unfold nestedPlay
            rw [if_neg h1, if_neg (by rw [h2]; exact Bool.noConfusion), if_neg h3,
              if_neg (fun hm => h4 (mem_minesPositions.mp hm).2), if_pos h5]
          · refine Or.inr (Or.inr (Or.inr (Or.inr (Or.inr ⟨h1f, h2, h3, h4, h5, ?_⟩))))
            unfold nestedPlay
            rw [if_neg h1, if_neg (by rw [h2]; exact Bool.noConfusion), if_neg h3,
              if_neg (fun hm => h4 (mem_minesPositions.mp hm).2), if_neg h5]
    · have h2f : isInside g.size pos = false := by simpa using h2
      refine Or.inr (Or.inl ⟨h1f, h2f, ?_⟩)
      unfold nestedPlay
      rw [if_neg h1, if_pos h2f]

theorem nestedPlay_frame {g : Game} {pos : Coord} {p : Play} {g' : Game}
    (h : nestedPlay g pos = .ok (p, g')) :
    g'.size = g.size ∧ g'.board = g.board ∧ g'.flags = g.flags ∧
    g'.history = g.history ∧ ∃ new, g'.revealed = g.revealed ++ new := by
  rcases nestedPlay_eq g pos with ⟨-, he⟩ | ⟨-, -, he⟩ | ⟨-, -, -, he⟩ |
    ⟨-, -, -, -, he⟩ | ⟨-, -, -, -, -, he⟩ | ⟨-, -, -, -, -, he⟩ <;>
    rw [he] at h
  · obtain ⟨-, h2⟩ := Prod.mk.injEq .. ▸ Except.ok.inj h
    rw [← h2]
    exact ⟨rfl, rfl, rfl, rfl, [], (List.append_nil _).symm⟩
  · exact Except.noConfusion h
  · obtain ⟨-, h2⟩ := Prod.mk.injEq .. ▸ Except.ok.inj h
    rw [← h2]
    exact ⟨rfl, rfl, rfl, rfl, [], (List.append_nil _).symm⟩
  · obtain ⟨-, h2⟩ := Prod.mk.injEq .. ▸ Except.ok.inj h
    rw [← h2]
    exact ⟨rfl, rfl, rfl, rfl, [pos], rfl⟩
  · obtain ⟨-, h2⟩ := Prod.mk.injEq .. ▸ Except.ok.inj h
    rw [← h2]
    exact ⟨rfl, rfl, rfl, rfl, (spreadEmpty g.board g.size pos g.revealed).1,
      spreadAux_shape g.board g.size _ pos g.revealed⟩
  · obtain ⟨-, h2⟩ := Prod.mk.injEq .. ▸ Except.ok.inj h
    rw [← h2]
    exact ⟨rfl, rfl, rfl, rfl, [pos], rfl⟩

theorem nestedPlay_bomb {g : Game} {pos : Coord} {p : Play} {g' : Game}
    (h : nestedPlay g pos = .ok (p, g')) :
    p.bomb_exploded = true ↔
      (gameOver g = false ∧ pos ∉ g.flags ∧ isInside g.size pos = true ∧
        bget g.board pos = -1) := by
  rcases nestedPlay_eq g pos with ⟨h1, he⟩ | ⟨-, -, he⟩ | ⟨h1, h2, h3, he⟩ |
    ⟨h1, h2, h3, h4, he⟩ | ⟨h1, h2, h3, h4, h5, he⟩ | ⟨h1, h2, h3, h4, h5, he⟩ <;>
    rw [he] at h
  · obtain ⟨hp, -⟩ := Prod.mk.injEq .. ▸ Except.ok.inj h
    rw [← hp]
    simp [h1]
  · exact Except.noConfusion h
  · obtain ⟨hp, -⟩ := Prod.mk.injEq .. ▸ Except.ok.inj h
    rw [← hp]
    simp
    intro hg hf
    exact absurd h3 hf
  · obtain ⟨hp, -⟩ := Prod.mk.injEq .. ▸ Except.ok.inj h
    rw [← hp]
    simp [h1, h2, h3, h4]
  · obtain ⟨hp, -⟩ := Prod.mk.injEq .. ▸ Except.ok.inj h
    rw [← hp]
    simp
    intro hg hf hin
    exact h4
  · obtain ⟨hp, -⟩ := Prod.mk.injEq .. ▸ Except.ok.inj h
    rw [← hp]
    simp
    intro hg hf hin
    exact h4

theorem nestedPlay_mem {g : Game} {pos : Coord} {p : Play} {g' : Game}
    (h : nestedPlay g pos = .ok (p, g'))
    (hin : isInside g.size pos = true) (hflag : pos ∉ g.flags)
    (hlb : lastBomb g.history = false) : pos ∈ g'.revealed := by
  rcases nestedPlay_eq g pos with ⟨h1, he⟩ | ⟨-, h2, -⟩ | ⟨-, -, h3, -⟩ |
    ⟨-, -, -, -, he⟩ | ⟨-, -, -, -, h5, he⟩ | ⟨-, -, -, -, -, he⟩
  · rw [he] at h
    obtain ⟨-, h2⟩ := Prod.mk.injEq .. ▸ Except.ok.inj h
    rw [← h2]
    have hwon : wonB g = true := by
      rcases gameOver_true_cases h1 with hw | hl
      · exact hw
      · rw [hlb] at hl
        exact absurd hl (by decide)
    obtain ⟨hfl, hrv⟩ := wonB_iff.mp hwon
    by_cases hm : bget g.board pos = -1
    · exfalso
      have : pos ∈ g.flags.toFinset := by
        rw [hfl]
        exact List.mem_toFinset.mpr (mem_minesPositions.mpr ⟨hin, hm⟩)
      exact hflag (List.mem_toFinset.mp this)
    · have : pos ∈ g.revealed.toFinset := by
        rw [hrv]
        refine List.mem_toFinset.mpr ?_
        rw [nonMinePositions, List.mem_filter]
        exact ⟨mem_allPositions.mpr hin, by simpa using hm⟩
      exact List.mem_toFinset.mp this
  · rw [hin] at h2
    exact absurd h2 (by decide)
  · exact absurd h3 hflag
  · rw [he] at h
    obtain ⟨-, h2⟩ := Prod.mk.injEq .. ▸ Except.ok.inj h
    rw [← h2]
    exact List.mem_append_right _ (List.mem_singleton_self _)
  · rw [he] at h
    obtain ⟨-, h2⟩ := Prod.mk.injEq .. ▸ Except.ok.inj h
    rw [← h2]
    exact spreadAux_mem_self g.board g.size _ pos g.revealed (by omega) (Or.inr hin)
  · rw [he] at h
    obtain ⟨-, h2⟩ := Prod.mk.injEq .. ▸ Except.ok.inj h
    rw [← h2]
    exact List.mem_append_right _ (List.mem_singleton_self _)

/-! ### Claim C1: the state trichotomy -/

/-- **C1**: at any point exactly one state holds, in this priority order:
`WON` iff the flag set equals the mine set and the revealed set equals the
non-mine set; otherwise `LOST` iff the last history record carries the
caused-loss flag; otherwise `IN_PROGRESS`.  In particular a flag sitting on a
non-mine cell rules `WON` out, however much is revealed. -/
theorem claim1_state_trichotomy (g : Game) :
    (stateOf g = .WON ↔
      (g.flags.toFinset = (minesPositions g).toFinset ∧
        g.revealed.toFinset = (nonMinePositions g).toFinset)) ∧
    (stateOf g = .LOST ↔
      (¬(g.flags.toFinset = (minesPositions g).toFinset ∧
          g.revealed.toFinset = (nonMinePositions g).toFinset) ∧
        lastBomb g.history = true)) ∧
    (stateOf g = .IN_PROGRESS ↔
      (¬(g.flags.toFinset = (minesPositions g).toFinset ∧
          g.revealed.toFinset = (nonMinePositions g).toFinset) ∧
        lastBomb g.history = false)) ∧
    (∀ f ∈ g.flags, f ∉ minesPositions g → stateOf g ≠ .WON) := by
  have hW : wonB g = true → stateOf g = .WON := fun hw => by
    unfold stateOf
    rw [if_pos hw]
  have hL : wonB g = false → lastBomb g.history = true → stateOf g = .LOST := fun hw hl => by
    unfold stateOf
    rw [if_neg (by rw [hw]; exact Bool.noConfusion), if_pos hl]
  have hI : wonB g = false → lastBomb g.history = false → stateOf g = .IN_PROGRESS :=
    fun hw hl => by
      unfold stateOf
      rw [if_neg (by rw [hw]; exact Bool.noConfusion),
        if_neg (by rw [hl]; exact Bool.noConfusion)]
  by_cases hw : wonB g = true
  · obtain ⟨hfleq, hrveq⟩ := wonB_iff.mp hw
    have hs := hW hw
    refine ⟨⟨fun _ => ⟨hfleq, hrveq⟩, fun _ => hs⟩, ?_, ?_, ?_⟩
    · constructor
      · intro h
        rw [hs] at h
        exact absurd h (by decide)
      · rintro ⟨hnw, -⟩
        exact absurd ⟨hfleq, hrveq⟩ hnw
    · constructor
      · intro h
        rw [hs] at h
        exact absurd h (by decide)
      · rintro ⟨hnw, -⟩
        exact absurd ⟨hfleq, hrveq⟩ hnw
    · intro f hf hnm _
      have : f ∈ (minesPositions g).toFinset := by
        rw [← hfleq]
        exact List.mem_toFinset.mpr hf
      exact hnm (List.mem_toFinset.mp this)
  · have hwf : wonB g = false := by simpa using hw
    have hnw : ¬(g.flags.toFinset = (minesPositions g).toFinset ∧
        g.revealed.toFinset = (nonMinePositions g).toFinset) :=
      fun hcon => hw (wonB_iff.mpr hcon)
    by_cases hl : lastBomb g.history = true
    · have hs := hL hwf hl
      refine ⟨⟨fun h => ?_, fun hcon => absurd hcon hnw⟩, ⟨fun _ => ⟨hnw, hl⟩, fun _ => hs⟩,
        ⟨fun h => ?_, fun hcon => ?_⟩, fun _ _ _ h => ?_⟩
      · rw [hs] at h
        exact absurd h (by decide)
      · rw [hs] at h
        exact absurd h (by decide)
      · obtain ⟨-, hl'⟩ := hcon
        rw [hl] at hl'
        exact absurd hl' (by decide)
      · rw [hs] at h
        exact absurd h (by decide)
    · have hlf : lastBomb g.history = false := by simpa using hl
      have hs := hI hwf hlf
      refine ⟨⟨fun h => ?_, fun hcon => absurd hcon hnw⟩, ⟨fun h => ?_, fun hcon => ?_⟩,
        ⟨fun _ => ⟨hnw, hlf⟩, fun _ => hs⟩, fun _ _ _ h => ?_⟩
      · rw [hs] at h
        exact absurd h (by decide)
      · rw [hs] at h
        exact absurd h (by decide)
      · obtain ⟨-, hl'⟩ := hcon
        rw [hlf] at hl'
        exact absurd hl' (by decide)
      · rw [hs] at h
        exact absurd h (by decide)

/-- A 1×2 game (mine at `(0, 1)`) with every non-mine cell revealed but the
single flag sitting on the *non-mine* cell `(0, 0)`: reveal `(0, 0)`, then
flag it. -/
def gC1 : Game :=
  ⟨(1, 2), [[1, -1]], [(0, 0)], [(0, 0)],
    [⟨.POSITION_REVEALED, [(0, 0)], false⟩, ⟨.FLAG_REMOVED, [(0, 0)], false⟩]⟩

/-- Witness for C1: all non-mine cells revealed, one flag on a non-mine cell —
the state is not `WON`. -/
theorem claim1_witness :
    ((0, 0) ∈ gC1.flags ∧ (0, 0) ∉ minesPositions gC1 ∧
      gC1.revealed.toFinset = (nonMinePositions gC1).toFinset) ∧
    stateOf gC1 ≠ .WON :=
  ⟨⟨by decide, by decide, by decide⟩,
    (claim1_state_trichotomy gC1).2.2.2 (0, 0) (by decide) (by decide)⟩

/-! ### Claim C3: the chord -/

theorem lastBomb_concat (h : List Play) (p : Play) :
    lastBomb (h ++ [p]) = p.bomb_exploded := by
  unfold lastBomb
  rw [List.getLast?_concat]

/-- Invariant of the chord's neighbor loop: it never raises (the neighbors are
in bounds), it only grows `_revealed`, the aggregated `bomb_exploded` flag is
the OR over the unflagged mine neighbors, and every unflagged neighbor ends up
revealed. -/
theorem chordLoop_spec : ∀ (qs : List Coord) (g : Game) (acc : List Coord) (bomb : Bool),
    (∀ q ∈ qs, isInside g.size q = true) → lastBomb g.history = false →
    ∃ lpos bomb' g', chordLoop qs g acc bomb = .ok (lpos, bomb', g') ∧
      g'.size = g.size ∧ g'.board = g.board ∧ g'.flags = g.flags ∧
      g'.history = g.history ∧ (∃ new, g'.revealed = g.revealed ++ new) ∧
      (bomb' = true ↔ (bomb = true ∨ ∃ q ∈ qs, bget g.board q = -1 ∧ q ∉ g.flags)) ∧
      (∀ q ∈ qs, q ∉ g.flags → q ∈ g'.revealed)
  | [], g, acc, bomb => by
    intro _ _
    refine ⟨acc, bomb, g, rfl, rfl, rfl, rfl, rfl, ⟨[], (List.append_nil _).symm⟩, ?_, ?_⟩
    · simp
    · intro q hq
      cases hq
  | q' :: qs, g, acc, bomb => by
    intro hqs hlb
    have hin' : isInside g.size q' = true := hqs q' (List.mem_cons_self _ _)
    obtain ⟨p, g2, hnp⟩ : ∃ p g2, nestedPlay g q' = .ok (p, g2) := by
      rcases nestedPlay_eq g q' with ⟨-, he⟩ | ⟨-, h2, -⟩ | ⟨-, -, -, he⟩ |
        ⟨-, -, -, -, he⟩ | ⟨-, -, -, -, -, he⟩ | ⟨-, -, -, -, -, he⟩
      · exact ⟨_, _, he⟩
      · rw [hin'] at h2
        exact absurd h2 (by decide)
      · exact ⟨_, _, he⟩
      · exact ⟨_, _, he⟩
      · exact ⟨_, _, he⟩
      · exact ⟨_, _, he⟩
    obtain ⟨hsz, hbd, hfl, hhs, hnew⟩ := nestedPlay_frame hnp
    have hqs2 : ∀ q ∈ qs, isInside g2.size q = true := by
      intro q hq
      rw [hsz]
      exact hqs q (List.mem_cons_of_mem _ hq)
    have hlb2 : lastBomb g2.history = false := by rw [hhs]; exact hlb
    obtain ⟨lpos, bomb', g3, hloop, hsz3, hbd3, hfl3, hhs3, hnew3, hbomb3, hmem3⟩ :=
      chordLoop_spec qs g2 (if p.type ≠ .NOTHING then acc ++ p.positions else acc)
        (bomb || p.bomb_exploded) hqs2 hlb2
    refine ⟨lpos, bomb', g3, ?_, by rw [hsz3, hsz], by rw [hbd3, hbd], by rw [hfl3, hfl],
      by rw [hhs3, hhs], ?_, ?_, ?_⟩
    · unfold chordLoop
      rw [hnp]
      exact hloop
    · obtain ⟨n1, hn1⟩ := hnew
      obtain ⟨n2, hn2⟩ := hnew3
      exact ⟨n1 ++ n2, by rw [hn2, hn1, List.append_assoc]⟩
    · rw [hbomb3]
      have hpb := nestedPlay_bomb hnp
      constructor
      · rintro (hb | hq)
        · rcases Bool.or_eq_true _ _ |>.mp hb with hb' | hb'
          · exact Or.inl hb'
          · obtain ⟨-, hf, -, hm⟩ := hpb.mp hb'
            exact Or.inr ⟨q', List.mem_cons_self _ _, hm, hf⟩
        · obtain ⟨q, hq1, hq2, hq3⟩ := hq
          rw [hbd] at hq2
          rw [hfl] at hq3
          exact Or.inr ⟨q, List.mem_cons_of_mem _ hq1, hq2, hq3⟩
      · rintro (hb | ⟨q, hq1, hq2, hq3⟩)
        · exact Or.inl (by rw [hb]; rfl)
        · rcases List.mem_cons.mp hq1 with rfl | hq1'
          · -- the head neighbor is an unflagged mine: the game cannot be over here
            have hgo : gameOver g = false := by
              by_cases hgo : gameOver g = true
              · exfalso
                rcases gameOver_true_cases hgo with hw | hl
                · obtain ⟨hfleq, -⟩ := wonB_iff.mp hw
                  have : q ∈ g.flags.toFinset := by
                    rw [hfleq]
                    exact List.mem_toFinset.mpr (mem_minesPositions.mpr ⟨hin', hq2⟩)
                  exact hq3 (List.mem_toFinset.mp this)
                · rw [hlb] at hl
                  exact absurd hl (by decide)
              · simpa using hgo
            have : p.bomb_exploded = true := hpb.mpr ⟨hgo, hq3, hin', hq2⟩
            exact Or.inl (by rw [this, Bool.or_true])
          · exact Or.inr ⟨q, hq1', by rw [hbd]; exact hq2, by rw [hfl]; exact hq3⟩
    · intro q hq hqf
      rcases List.mem_cons.mp hq with rfl | hq'
      · have : q ∈ g2.revealed := nestedPlay_mem hnp hin' hqf hlb
        obtain ⟨n2, hn2⟩ := hnew3
        rw [hn2]
        exact List.mem_append_left _ this
      · exact hmem3 q hq' (by rw [hfl]; exact hqf)

/-- **C3**: a top-level play on an already-revealed, in-bounds, unflagged cell
chords when its value `v` is positive and equals the number of flagged
neighbors: the result is a single `CHORD` record, produced without raising,
whose aggregate caused-loss flag is set exactly when some unflagged neighbor
is a mine (a mine does not stop the loop: every unflagged neighbor still ends
up revealed).  Otherwise (`v = 0` or a differing flag count) the play returns
a `NOTHING` record and leaves the revealed set, the flags and the game state
unchanged. -/
theorem claim3_chord (g : Game) (pos : Coord)
    (hover : gameOver g = false) (hin : isInside g.size pos = true)
    (hrev : pos ∈ g.revealed) (hflag : pos ∉ g.flags) :
    (0 < bget g.board pos ∧ bget g.board pos =
        (((getAdjacent g.size pos).filter fun adj => decide (adj ∈ g.flags)).length : Int) →
      ∃ p g', topPlay g pos = .ok (p, g') ∧ p.type = .CHORD ∧
        (p.bomb_exploded = true ↔
          ∃ q ∈ getAdjacent g.size pos, bget g.board q = -1 ∧ q ∉ g.flags) ∧
        (∀ q ∈ getAdjacent g.size pos, q ∉ g.flags → q ∈ g'.revealed)) ∧
    (¬(0 < bget g.board pos ∧ bget g.board pos =
        (((getAdjacent g.size pos).filter fun adj => decide (adj ∈ g.flags)).length : Int)) →
      ∃ p g', topPlay g pos = .ok (p, g') ∧ p.type = .NOTHING ∧
        g'.revealed = g.revealed ∧ g'.flags = g.flags ∧ stateOf g' = stateOf g) := by
  have hover' : ¬ gameOver g = true := by simp [hover]
  have hlb : lastBomb g.history = false := (not_gameOver_parts hover).2
  have hwon : wonB g = false := (not_gameOver_parts hover).1
  constructor
  · intro hc
    obtain ⟨lpos, bomb', g3, hloop, hsz3, hbd3, hfl3, hhs3, hnew3, hbomb3, hmem3⟩ :=
      chordLoop_spec (getAdjacent g.size pos) g [] false
        (fun q hq => (mem_getAdjacent.mp hq).2) hlb
    have hchord : doChord g pos = .ok (⟨.CHORD, lpos, bomb'⟩, g3) := by
      unfold doChord
      dsimp only
      rw [if_pos hc, hloop]
    refine ⟨⟨.CHORD, lpos, bomb'⟩, { g3 with history := g3.history ++ [⟨.CHORD, lpos, bomb'⟩] },
      ?_, rfl, ?_, ?_⟩
    · unfold topPlay
      rw [if_neg hover', if_neg (by rw [hin]; exact Bool.noConfusion), if_neg hflag,
        if_pos hrev, hchord]
    · simp only
      rw [hbomb3]
      simp
    · intro q hq hqf
      exact hmem3 q hq hqf
  · intro hc
    have hchord : doChord g pos = .ok (⟨.NOTHING, [pos], false⟩, g) := by
      unfold doChord
      dsimp only
      rw [if_neg hc]
    refine ⟨⟨.NOTHING, [pos], false⟩, { g with history := g.history ++ [⟨.NOTHING, [pos], false⟩] },
      ?_, rfl, rfl, rfl, ?_⟩
    · unfold topPlay
      rw [if_neg hover', if_neg (by rw [hin]; exact Bool.noConfusion), if_neg hflag,
        if_pos hrev, hchord]
    · unfold stateOf
      have h1 : wonB { g with history := g.history ++ [⟨.NOTHING, [pos], false⟩] } = wonB g := rfl
      rw [h1, hwon, lastBomb_concat, hlb]

/-- The test-suite scenario `test_chord`: the 5×5 board with `(3, 4)` flagged
and `(2, 4)` (value 1) already revealed. -/
def gW : Game :=
  ⟨(5, 5), tb, [(3, 4)], [(2, 4)],
    [⟨.FLAG_REMOVED, [(3, 4)], false⟩, ⟨.POSITION_REVEALED, [(2, 4)], false⟩]⟩

/-- Witness for C3 (chord branch), on the test board after flagging `(3, 4)`
and revealing `(2, 4)`. -/
theorem claim3_witness :
    (gameOver gW = false ∧ isInside gW.size (2, 4) = true ∧ (2, 4) ∈ gW.revealed ∧
      (2, 4) ∉ gW.flags ∧
      (0 < bget gW.board (2, 4) ∧ bget gW.board (2, 4) =
        (((getAdjacent gW.size (2, 4)).filter fun adj => decide (adj ∈ gW.flags)).length : Int))) ∧
    (∃ p g', topPlay gW (2, 4) = .ok (p, g') ∧ p.type = .CHORD ∧
      (p.bomb_exploded = true ↔
        ∃ q ∈ getAdjacent gW.size (2, 4), bget gW.board q = -1 ∧ q ∉ gW.flags) ∧
      (∀ q ∈ getAdjacent gW.size (2, 4), q ∉ gW.flags → q ∈ g'.revealed)) :=
  ⟨⟨by decide, by decide, by decide, by decide, by decide, by decide⟩,
    (claim3_chord gW (2, 4) (by decide) (by decide) (by decide) (by decide)).1
      ⟨by decide, by decide⟩⟩

/-! ### Claim C10 -/

theorem doChord_type {g : Game} {pos : Coord} {p : Play} {g' : Game}
    (h : doChord g pos = .ok (p, g')) : p.type = .CHORD ∨ p.type = .NOTHING := by
  unfold doChord at h
  dsimp only at h
  by_cases hc : 0 < bget g.board pos ∧ bget g.board pos =
      (((getAdjacent g.size pos).filter fun adj => decide (adj ∈ g.flags)).length : Int)
  · rw [if_pos hc] at h
    cases hcl : chordLoop (getAdjacent g.size pos) g [] false with
    | error e => rw [hcl] at h; exact Except.noConfusion h
    | ok v =>
      rw [hcl] at h
      obtain ⟨lpos, bomb, g''⟩ := v
      simp only [Except.ok.injEq, Prod.mk.injEq] at h
      rw [← h.1]
      exact Or.inl rfl
  · rw [if_neg hc] at h
    simp only [Except.ok.injEq, Prod.mk.injEq] at h
    rw [← h.1]
    exact Or.inr rfl

/-- **C10**: a spreading record never carries the caused-loss flag (its
`bomb_exploded` field is constructed as `False`), and — on a board where every
non-mine cell counts its adjacent mines, as the generator produces — a spread
started at a zero-valued cell never reveals a mine, because a zero-valued cell
has no adjacent mines. -/
theorem claim10_spreading_safe (g : Game) (pos : Coord) :
    (∀ p g', topPlay g pos = .ok (p, g') → p.type = .SPREADING →
      p.bomb_exploded = false) ∧
    (consistentBoard g.board g.size → isInside g.size pos = true →
      bget g.board pos = 0 →
      ∀ q ∈ (spreadEmpty g.board g.size pos g.revealed).1, bget g.board q ≠ -1) := by
  constructor
  · intro p g' h htype
    unfold topPlay at h
    by_cases h1 : gameOver g = true
    · rw [if_pos h1] at h; exact Except.noConfusion h
    · rw [if_neg h1] at h
      by_cases h2 : isInside g.size pos = false
      · rw [if_pos h2] at h; exact Except.noConfusion h
      · rw [if_neg h2] at h
        by_cases h3 : pos ∈ g.flags
        · rw [if_pos h3] at h
          simp only [Except.ok.injEq, Prod.mk.injEq] at h
          rw [← h.1] at htype
          exact PlayType.noConfusion htype
        · rw [if_neg h3] at h
          by_cases h4 : pos ∈ g.revealed
          · rw [if_pos h4] at h
            cases hcl : doChord g pos with
            | error e => rw [hcl] at h; exact Except.noConfusion h
            | ok v =>
              rw [hcl] at h
              obtain ⟨pp, gg⟩ := v
              simp only [Except.ok.injEq, Prod.mk.injEq] at h
              rw [← h.1] at htype
              rcases doChord_type hcl with ht | ht <;>
                · rw [ht] at htype; exact PlayType.noConfusion htype
          · rw [if_neg h4] at h
            by_cases h5 : pos ∈ minesPositions g
            · rw [if_pos h5] at h
              simp only [Except.ok.injEq, Prod.mk.injEq] at h
              rw [← h.1] at htype
              exact PlayType.noConfusion htype
            · rw [if_neg h5] at h
              by_cases h6 : bget g.board pos = 0
              · rw [if_pos h6] at h
                simp only [Except.ok.injEq, Prod.mk.injEq] at h
                rw [← h.1]
              · rw [if_neg h6] at h
                simp only [Except.ok.injEq, Prod.mk.injEq] at h
                rw [← h.1] at htype
                exact PlayType.noConfusion htype
  · intro hcons hin h0 q hq
    exact reaches_not_mine hcons hin h0 q (spreadAux_sound g.board g.size _ pos g.revealed q hq)

/-- Witness for C10 on the test board: the spread at `(0, 0)` carries
`bomb_exploded = false` and reveals no mine. -/
theorem claim10_witness :
    (Play.mk .SPREADING [(0, 0), (0, 1), (1, 0), (1, 1)] false).bomb_exploded = false ∧
    (∀ q ∈ (spreadEmpty tg.board tg.size (0, 0) tg.revealed).1, bget tg.board q ≠ -1) :=
  ⟨(claim10_spreading_safe tg (0, 0)).1
      ⟨.SPREADING, [(0, 0), (0, 1), (1, 0), (1, 1)], false⟩
      ⟨(5, 5), tb, [], [(0, 0), (0, 1), (1, 0), (1, 1)],
        [⟨.SPREADING, [(0, 0), (0, 1), (1, 0), (1, 1)], false⟩]⟩
      (by decide) (by decide),
    (claim10_spreading_safe tg (0, 0)).2 (by decide) (by decide) (by decide)⟩

/-! ### Claims C5, C6, C7: divergences between the code and its own
documentation -/

/-- A won 1×2 game (mine at `(0, 1)`): reveal `(0, 0)` then flag `(0, 1)` —
flags equal mines and all non-mine cells are revealed. -/
def gC5 : Game :=
  ⟨(1, 2), [[1, -1]], [(0, 1)], [(0, 0)],
    [⟨.POSITION_REVEALED, [(0, 0)], false⟩, ⟨.FLAG_REMOVED, [(0, 1)], false⟩]⟩

/-- **C5**: `undo`'s docstring says "Cancel the last move if it was a bomb
hit", and the claim says it is a no-op unless the game is over due to a
*loss*.  The code instead acts whenever `game_over` — including on a *win* —
where it pops the last history record (here a flag toggle) and calls
`self._revealed.remove` on a coordinate that was never revealed, raising
`ValueError` instead of being a no-op. -/
theorem claim5_undo_acts_on_win :
    stateOf gC5 = .WON ∧ gameOver gC5 = true ∧ undo gC5 = .error .valueError := by
  decide

/-- A lost 1×2 game: the mine `(0, 1)` was played. -/
def gC5lost : Game :=
  ⟨(1, 2), [[1, -1]], [], [(0, 1)], [⟨.POSITION_REVEALED, [(0, 1)], true⟩]⟩

/-- For contrast with C5: after a plain mine-reveal loss `undo` does behave as
the claim describes — it removes the record and the one triggering coordinate
and the game returns to `IN_PROGRESS`. -/
theorem claim5_loss_case_works :
    stateOf gC5lost = .LOST ∧
    undo gC5lost = .ok ⟨(1, 2), [[1, -1]], [], [], []⟩ ∧
    stateOf ⟨(1, 2), [[1, -1]], [], [], []⟩ = .IN_PROGRESS := by
  decide

/-- **C6**: the error side of the claim holds — `play` raises `GameOver` on a
finished game and `ValueError` out of bounds — but the public `play` method's
body is `self._play(row, column)` with no `return`, so a successful play
returns `None` (here `none`), never the move record its docstring promises. -/
theorem claim6_play_returns_none :
    (∀ g pos, gameOver g = true → play g pos = .error .gameOver) ∧
    (∀ g pos, gameOver g = false → isInside g.size pos = false →
      play g pos = .error .valueError) ∧
    play tg (0, 1) =
      .ok (none, ⟨(5, 5), tb, [], [(0, 1)], [⟨.POSITION_REVEALED, [(0, 1)], false⟩]⟩) := by
  refine ⟨?_, ?_, by decide⟩
  · intro g pos h
    unfold play topPlay
    rw [if_pos h]
  · intro g pos h1 h2
    unfold play topPlay
    rw [if_neg (by rw [h1]; exact Bool.noConfusion), if_pos h2]

/-- Witness for C6: the general error clauses applied to a lost game and to an
out-of-bounds coordinate. -/
theorem claim6_witness :
    (gameOver gC5lost = true ∧ play gC5lost (0, 0) = .error .gameOver) ∧
    (gameOver tg = false ∧ isInside tg.size (9, 9) = false ∧
      play tg (9, 9) = .error .valueError) :=
  ⟨⟨by decide, claim6_play_returns_none.1 gC5lost (0, 0) (by decide)⟩,
    ⟨by decide, by decide, claim6_play_returns_none.2.1 tg (9, 9) (by decide) (by decide)⟩⟩

/-- **C7**: `toggle_flag` raises `ValueError` out of bounds, removing an
existing flag works and records `FLAG_REMOVED` — but *adding* a flag also
records `FLAG_REMOVED` (line 222 constructs `PlayType.FLAG_REMOVED` in the
add branch too; the `FLAG_ADDED` member exists and is never used), against the
claim's "record of kind flag-added". -/
theorem claim7_toggle_flag :
    toggleFlag tg (9, 9) = .error .valueError ∧
    ((0, 0) ∉ tg.flags ∧
      toggleFlag tg (0, 0) = .ok (⟨.FLAG_REMOVED, [(0, 0)], false⟩,
        ⟨(5, 5), tb, [(0, 0)], [], [⟨.FLAG_REMOVED, [(0, 0)], false⟩]⟩)) ∧
    ((3, 4) ∈ gW.flags ∧
      toggleFlag gW (3, 4) = .ok (⟨.FLAG_REMOVED, [(3, 4)], false⟩,
        ⟨(5, 5), tb, [], [(2, 4)],
          [⟨.FLAG_REMOVED, [(3, 4)], false⟩, ⟨.POSITION_REVEALED, [(2, 4)], false⟩,
           ⟨.FLAG_REMOVED, [(3, 4)], false⟩]⟩)) := by
  decide

end Minesweeper